import Mathlib

/-!
Verification development for the ctrack in-process profiler.

The repository ships the library's tests, benchmarks and examples; the
single-header library itself is not part of the source tree here, so the
measurement engine and statistical aggregator are modelled from the
specification (data model section 3, aggregator algorithm section 4.6,
persistence codec section 4.7), with the shipped tests pinning down the
points the prose leaves open (notably the single-event bracket collapse).

Conventions of the embedding:
  - timestamps are integer nanoseconds (`Int`);
  - per-thread event streams are post-order flattenings of properly nested
    scope forests (spec invariants I1-I3);
  - statistics are computed exactly over `Rat`; `standard_deviation` and
    `coefficient_of_variation` are represented by their squares (`sd_sq`,
    `cv_sq`), since the reported values are their nonnegative square roots.
-/

namespace Ctrack

/-- Modelled from the spec: a closed scope event as stored in a per-thread
buffer: `{ site_id, t_enter: i64 ns, t_exit: i64 ns }`. -/
structure RawEvent where
  site_id : Nat
  t_enter : Int
  t_exit : Int
deriving DecidableEq

/-- Inclusive (active) duration of an event: wall-clock ns from enter to exit. -/
def duration (e : RawEvent) : Int := e.t_exit - e.t_enter

/-- Modelled from the spec: interval containment test used to reconstruct
nesting: `a` contains `b` iff `a.t_enter <= b.t_enter` and `b.t_exit <= a.t_exit`. -/
def containsEv (a b : RawEvent) : Bool :=
  decide (a.t_enter ≤ b.t_enter) && decide (b.t_exit ≤ a.t_exit)

/-- Modelled from the spec: the aggregator's stack reconstruction (step 2).
When event `e` arrives (in scope-exit order), the completed, still unclaimed
frames whose enter timestamp lies at or after `e.t_enter` are exactly `e`'s
direct children; they are popped and their inclusive durations accumulated
into `e`'s children sum. Returns the children sum and the remaining stack. -/
def popChildren (e : RawEvent) : List (RawEvent × Int) → Int × List (RawEvent × Int)
  | [] => (0, [])
  | f :: fs =>
    if e.t_enter ≤ f.1.t_enter then
      let r := popChildren e fs
      (duration f.1 + r.1, r.2)
    else (0, f :: fs)

/-- Modelled from the spec: processes a thread's events in exit order,
maintaining a stack of unclaimed frames paired with their (already final)
exclusive durations.  Returns the exclusive duration of every event in input
order, and the final stack, which holds exactly the root-level events. -/
def runAgg : List RawEvent → List (RawEvent × Int) → List Int × List (RawEvent × Int)
  | [], stack => ([], stack)
  | e :: rest, stack =>
    let p := popChildren e stack
    let r := runAgg rest ((e, duration e - p.1) :: p.2)
    ((duration e - p.1) :: r.1, r.2)

/-- Exclusive (active-exclusive) durations of a thread's events, in input order. -/
def exclusivesOf (events : List RawEvent) : List Int := (runAgg events []).1

/-- The final stack after processing a thread: its root-level events paired with
their exclusive durations. -/
def rootStackOf (events : List RawEvent) : List (RawEvent × Int) := (runAgg events []).2

/-- Modelled from the spec: a thread's contribution to `time_ctracked` (step 4):
the sum of the exclusive durations of its root-level events. -/
def threadCtracked (events : List RawEvent) : Int :=
  ((rootStackOf events).map Prod.snd).sum

/-- A properly nested scope forest of one thread (spec invariants I2/I3):
`node e ch rest` is a tree whose root scope is `e` with nested children `ch`,
followed by the later sibling trees `rest`. -/
inductive Forest where
  | nil : Forest
  | node : RawEvent → Forest → Forest → Forest
deriving DecidableEq

/-- Post-order flattening of a forest: exactly the scope-exit order in which
the thread's buffer records the events. -/
def flattenF : Forest → List RawEvent
  | .nil => []
  | .node e ch rest => flattenF ch ++ e :: flattenF rest

/-- Well-formedness of a scope forest within the window `[lo, hi]`:
every enter is at or after `lo` and at or before the matching exit, every exit
is at or before `hi`; children lie within their parent; a later sibling enters
strictly after the previous sibling entered and not before it exited. -/
def wfF : Int → Int → Forest → Bool
  | _, _, .nil => true
  | lo, hi, .node e ch rest =>
    decide (lo ≤ e.t_enter) && decide (e.t_enter ≤ e.t_exit) && decide (e.t_exit ≤ hi) &&
      wfF e.t_enter e.t_exit ch && wfF (max (e.t_enter + 1) e.t_exit) hi rest

/-- Root events of the top-level trees of a forest, in order. -/
def topRoots : Forest → List RawEvent
  | .nil => []
  | .node e _ rest => e :: topRoots rest

/-- Sum of inclusive durations of a list of events. -/
def sumDur (l : List RawEvent) : Int := (l.map duration).sum

/-- Per-event (in post order) sum of the inclusive durations of its direct
children in the forest. -/
def declKids : Forest → List Int
  | .nil => []
  | .node _ ch rest => declKids ch ++ sumDur (topRoots ch) :: declKids rest

/-- Per-event (in post order) declarative exclusive duration: inclusive
duration minus the inclusive durations of the direct children. -/
def declExcl : Forest → List Int
  | .nil => []
  | .node e ch rest =>
    declExcl ch ++ (duration e - sumDur (topRoots ch)) :: declExcl rest

/-- The stack frames left after processing a whole forest: its top-level roots
paired with their exclusive durations, most recent first. -/
def rootFrames : Forest → List (RawEvent × Int)
  | .nil => []
  | .node e ch rest => rootFrames rest ++ [(e, duration e - sumDur (topRoots ch))]

/-- Event of a sequence at a position, with a zero default. -/
def evAt (ev : List RawEvent) (i : Nat) : RawEvent := ev.getD i ⟨0, 0, 0⟩

/-- Position (relative to the start of the given suffix) of the first event
containing `x`, if any. -/
def findParentFrom (x : RawEvent) : List RawEvent → Option Nat
  | [] => none
  | y :: ys => if containsEv y x then some 0 else (findParentFrom x ys).map (· + 1)

/-- Declarative direct parent of the event at position `i`: the position of the
first later event in the sequence whose interval contains event `i`'s. -/
def parentIdx (ev : List RawEvent) (i : Nat) : Option Nat :=
  (findParentFrom (evAt ev i) (ev.drop (i + 1))).map (· + (i + 1))

/-- Sum of the inclusive durations of the direct children (in the sense of
`parentIdx`) of the event at position `j`. -/
def childDurSum (ev : List RawEvent) (j : Nat) : Int :=
  ((((List.range ev.length).filter fun i => parentIdx ev i = some j).map
    fun i => duration (evAt ev i)).sum)

/-- Declarative `time_ctracked` contribution of one thread: the sum of the
reported exclusive durations over the events with no parent. -/
def declCtracked (ev : List RawEvent) : Int :=
  ((((List.range ev.length).filter fun i => parentIdx ev i = none).map
    fun i => (exclusivesOf ev).getD i 0).sum)

/-- Forest-parent position: for a post-order position `i` in `flattenF f`, the
post-order position of its parent node in the forest, if any. -/
def fPP : Forest → Nat → Option Nat
  | .nil, _ => none
  | .node _ ch rest, i =>
    let m := (flattenF ch).length
    if i < m then some ((fPP ch i).getD m)
    else if i = m then none
    else (fPP rest (i - (m + 1))).map (· + (m + 1))

/-! Correctness of the stack reconstruction over properly nested forests. -/

theorem popChildren_split (e : RawEvent) (l s : List (RawEvent × Int))
    (hl : ∀ x ∈ l, e.t_enter ≤ x.1.t_enter)
    (hs : ∀ x ∈ s, x.1.t_enter < e.t_enter) :
    popChildren e (l ++ s) = (sumDur (l.map Prod.fst), s) := by
  induction l with
  | nil =>
    cases s with
    | nil => simp [popChildren, sumDur]
    | cons f fs =>
      have hf := hs f (by simp)
      simp [popChildren, sumDur, not_le.mpr hf]
  | cons f fs ih =>
    have hf := hl f (by simp)
    have ih' := ih (fun x hx => hl x (by simp [hx]))
    simp only [List.cons_append, popChildren, if_pos hf, List.append_eq]
    rw [ih']
    simp [sumDur]

theorem runAgg_append (l1 l2 : List RawEvent) (s : List (RawEvent × Int)) :
    runAgg (l1 ++ l2) s =
      ((runAgg l1 s).1 ++ (runAgg l2 (runAgg l1 s).2).1,
        (runAgg l2 (runAgg l1 s).2).2) := by
  induction l1 generalizing s with
  | nil => simp [runAgg]
  | cons e rest ih => simp [runAgg, ih]

theorem wfF_node_parts {lo hi : Int} {e : RawEvent} {ch rest : Forest}
    (h : wfF lo hi (.node e ch rest) = true) :
    lo ≤ e.t_enter ∧ e.t_enter ≤ e.t_exit ∧ e.t_exit ≤ hi ∧
      wfF e.t_enter e.t_exit ch = true ∧
      wfF (max (e.t_enter + 1) e.t_exit) hi rest = true := by
  simpa [wfF, and_assoc] using h

theorem wfF_enter_lb {lo hi : Int} {f : Forest} (hw : wfF lo hi f = true) :
    ∀ x ∈ flattenF f, lo ≤ x.t_enter := by
  induction f generalizing lo hi with
  | nil => simp [flattenF]
  | node e ch rest ihc ihr =>
    obtain ⟨h1, _, _, hch, hrest⟩ := wfF_node_parts hw
    intro x hx
    simp only [flattenF, List.mem_append, List.mem_cons] at hx
    rcases hx with hx | hx | hx
    · exact le_trans h1 (ihc hch x hx)
    · exact hx ▸ h1
    · have := ihr hrest x hx
      have h2 : lo ≤ max (e.t_enter + 1) e.t_exit := by
        have : lo ≤ e.t_enter + 1 := by omega
        exact le_trans this (le_max_left _ _)
      exact le_trans h2 this

theorem wfF_exit_ub {lo hi : Int} {f : Forest} (hw : wfF lo hi f = true) :
    ∀ x ∈ flattenF f, x.t_exit ≤ hi := by
  induction f generalizing lo hi with
  | nil => simp [flattenF]
  | node e ch rest ihc ihr =>
    obtain ⟨_, _, h3, hch, hrest⟩ := wfF_node_parts hw
    intro x hx
    simp only [flattenF, List.mem_append, List.mem_cons] at hx
    rcases hx with hx | hx | hx
    · exact le_trans (ihc hch x hx) h3
    · exact hx ▸ h3
    · exact ihr hrest x hx

theorem wfF_dur_nonneg {lo hi : Int} {f : Forest} (hw : wfF lo hi f = true) :
    ∀ x ∈ flattenF f, x.t_enter ≤ x.t_exit := by
  induction f generalizing lo hi with
  | nil => simp [flattenF]
  | node e ch rest ihc ihr =>
    obtain ⟨_, h2, _, hch, hrest⟩ := wfF_node_parts hw
    intro x hx
    simp only [flattenF, List.mem_append, List.mem_cons] at hx
    rcases hx with hx | hx | hx
    · exact ihc hch x hx
    · exact hx ▸ h2
    · exact ihr hrest x hx

theorem topRoots_subset_flattenF {f : Forest} : ∀ x ∈ topRoots f, x ∈ flattenF f := by
  induction f with
  | nil => simp [topRoots]
  | node e ch rest _ ihr =>
    intro x hx
    simp only [topRoots, List.mem_cons] at hx
    simp only [flattenF, List.mem_append, List.mem_cons]
    rcases hx with hx | hx
    · exact Or.inr (Or.inl hx)
    · exact Or.inr (Or.inr (ihr x hx))

theorem rootFrames_enter_lb {lo hi : Int} {f : Forest} (hw : wfF lo hi f = true) :
    ∀ x ∈ rootFrames f, lo ≤ x.1.t_enter := by
  induction f generalizing lo hi with
  | nil => simp [rootFrames]
  | node e ch rest _ ihr =>
    obtain ⟨h1, _, _, _, hrest⟩ := wfF_node_parts hw
    intro x hx
    simp only [rootFrames, List.mem_append, List.mem_singleton] at hx
    rcases hx with hx | hx
    · have := ihr hrest x hx
      have h2 : lo ≤ max (e.t_enter + 1) e.t_exit := by
        have : lo ≤ e.t_enter + 1 := by omega
        exact le_trans this (le_max_left _ _)
      exact le_trans h2 this
    · rw [hx]; exact h1

theorem sumDur_rootFrames (f : Forest) :
    sumDur ((rootFrames f).map Prod.fst) = sumDur (topRoots f) := by
  induction f with
  | nil => rfl
  | node e ch rest _ ihr =>
    simp only [rootFrames, topRoots, List.map_append, List.map_map, sumDur,
      List.sum_append, List.map_cons, List.sum_cons, List.map_nil, List.sum_nil] at *
    omega

theorem forest_run {lo hi : Int} (f : Forest) (s : List (RawEvent × Int))
    (hw : wfF lo hi f = true) (hs : ∀ x ∈ s, x.1.t_enter < lo) :
    runAgg (flattenF f) s = (declExcl f, rootFrames f ++ s) := by
  induction f generalizing lo hi s with
  | nil => simp [flattenF, runAgg, declExcl, rootFrames]
  | node e ch rest ihc ihr =>
    obtain ⟨h1, h2, h3, hch, hrest⟩ := wfF_node_parts hw
    have hs1 : ∀ x ∈ s, x.1.t_enter < e.t_enter :=
      fun x hx => lt_of_lt_of_le (hs x hx) h1
    have hrun1 := ihc s hch hs1
    have hpop : popChildren e (rootFrames ch ++ s) =
        (sumDur ((rootFrames ch).map Prod.fst), s) :=
      popChildren_split e _ s (rootFrames_enter_lb hch) hs1
    have hs2 : ∀ x ∈ ((e, duration e - sumDur (topRoots ch)) :: s),
        x.1.t_enter < max (e.t_enter + 1) e.t_exit := by
      intro x hx
      rcases List.mem_cons.mp hx with rfl | hx
      · exact lt_of_lt_of_le (by omega : e.t_enter < e.t_enter + 1) (le_max_left _ _)
      · exact lt_of_lt_of_le (lt_of_lt_of_le (hs1 x hx) (by omega)) (le_max_left _ _)
    have hrun2 := ihr ((e, duration e - sumDur (topRoots ch)) :: s) hrest hs2
    simp only [flattenF, runAgg_append, hrun1, runAgg, hpop, sumDur_rootFrames,
      hrun2, declExcl, rootFrames]
    simp [List.append_assoc]

theorem exclusivesOf_flattenF {lo hi : Int} {f : Forest} (hw : wfF lo hi f = true) :
    exclusivesOf (flattenF f) = declExcl f := by
  have := forest_run f [] hw (by simp)
  simp only [exclusivesOf, this, List.append_nil]

theorem rootStackOf_flattenF {lo hi : Int} {f : Forest} (hw : wfF lo hi f = true) :
    rootStackOf (flattenF f) = rootFrames f := by
  have := forest_run f [] hw (by simp)
  simp only [rootStackOf, this, List.append_nil]

/-! Positional lemmas relating `parentIdx` on the flattened sequence to the
forest structure. -/

theorem getD_append_lt {α : Type} {A B : List α} {i : Nat} (h : i < A.length) (d : α) :
    (A ++ B).getD i d = A.getD i d := by
  simp [List.getD_eq_getElem?_getD, List.getElem?_append, h]

theorem getD_append_shift {α : Type} (A B : List α) (k : Nat) (d : α) :
    (A ++ B).getD (A.length + k) d = B.getD k d := by
  simp [List.getD_eq_getElem?_getD, List.getElem?_append_right]

theorem evAt_append_lt {A B : List RawEvent} {i : Nat} (h : i < A.length) :
    evAt (A ++ B) i = evAt A i := getD_append_lt h _

theorem evAt_append_shift (A B : List RawEvent) (k : Nat) :
    evAt (A ++ B) (A.length + k) = evAt B k := getD_append_shift A B k _

theorem evAt_mem {ev : List RawEvent} {i : Nat} (h : i < ev.length) :
    evAt ev i ∈ ev := by
  rw [evAt, List.getD_eq_getElem _ _ h]
  exact List.getElem_mem h

theorem length_flattenF_node (e : RawEvent) (ch rest : Forest) :
    (flattenF (.node e ch rest)).length =
      (flattenF ch).length + 1 + (flattenF rest).length := by
  simp [flattenF]
  omega

theorem fPP_node_lt {e : RawEvent} {ch rest : Forest} {i : Nat}
    (h : i < (flattenF ch).length) :
    fPP (.node e ch rest) i = some ((fPP ch i).getD (flattenF ch).length) := by
  simp [fPP, h]

theorem fPP_node_self (e : RawEvent) (ch rest : Forest) :
    fPP (.node e ch rest) (flattenF ch).length = none := by
  simp [fPP]

theorem fPP_node_gt {e : RawEvent} {ch rest : Forest} {i : Nat}
    (h : (flattenF ch).length < i) :
    fPP (.node e ch rest) i =
      (fPP rest (i - ((flattenF ch).length + 1))).map (· + ((flattenF ch).length + 1)) := by
  have h1 : ¬ i < (flattenF ch).length := by omega
  have h2 : ¬ i = (flattenF ch).length := by omega
  simp [fPP, h1, h2]

theorem fPP_lt {f : Forest} {i p : Nat} (h : fPP f i = some p) :
    p < (flattenF f).length := by
  induction f generalizing i p with
  | nil => simp [fPP] at h
  | node e ch rest ihc ihr =>
    rw [length_flattenF_node]
    rcases Nat.lt_trichotomy i (flattenF ch).length with hc | hc | hc
    · rw [fPP_node_lt hc] at h
      cases hfp : fPP ch i with
      | none => rw [hfp] at h; simp at h; omega
      | some q =>
        rw [hfp] at h
        simp at h
        have := ihc hfp
        omega
    · subst hc
      rw [fPP_node_self] at h
      simp at h
    · rw [fPP_node_gt hc] at h
      cases hfp : fPP rest (i - ((flattenF ch).length + 1)) with
      | none => rw [hfp] at h; simp at h
      | some q =>
        rw [hfp] at h
        simp at h
        have := ihr hfp
        omega

theorem findParentFrom_append_some {x : RawEvent} {L : List RawEvent} {p : Nat}
    (R : List RawEvent) (h : findParentFrom x L = some p) :
    findParentFrom x (L ++ R) = some p := by
  induction L generalizing p with
  | nil => simp [findParentFrom] at h
  | cons y ys ih =>
    rw [List.cons_append]
    by_cases hy : containsEv y x
    · simp only [findParentFrom, hy, if_true] at h ⊢
      exact h
    · simp only [findParentFrom, hy, Bool.false_eq_true, if_false, List.append_eq] at h ⊢
      cases hfp : findParentFrom x ys with
      | none => rw [hfp] at h; simp at h
      | some q =>
        rw [hfp] at h
        simp only [Option.map_some'] at h
        rw [ih hfp, Option.map_some', h]

theorem findParentFrom_append_none {x : RawEvent} {L : List RawEvent}
    (R : List RawEvent) (h : findParentFrom x L = none) :
    findParentFrom x (L ++ R) = (findParentFrom x R).map (· + L.length) := by
  induction L with
  | nil => simp [findParentFrom]
  | cons y ys ih =>
    rw [List.cons_append]
    by_cases hy : containsEv y x
    · simp [findParentFrom, hy] at h
    · simp only [findParentFrom, hy, Bool.false_eq_true, if_false, List.append_eq,
        Option.map_eq_none'] at h ⊢
      rw [ih h]
      cases findParentFrom x R with
      | none => simp
      | some q =>
        simp only [Option.map_some', List.length_cons]
        congr 1

theorem findParentFrom_none {x : RawEvent} {L : List RawEvent}
    (h : ∀ y ∈ L, containsEv y x = false) : findParentFrom x L = none := by
  induction L with
  | nil => rfl
  | cons y ys ih =>
    have hy := h y (by simp)
    simp only [findParentFrom, hy, Bool.false_eq_true, if_false, Option.map_eq_none']
    exact ih fun z hz => h z (by simp [hz])

theorem parentIdx_flattenF {lo hi : Int} {f : Forest} (hw : wfF lo hi f = true) :
    ∀ i, i < (flattenF f).length → parentIdx (flattenF f) i = fPP f i := by
  induction f generalizing lo hi with
  | nil => intro i h; simp [flattenF] at h
  | node e ch rest ihc ihr =>
    obtain ⟨h1, h2, h3, hch, hrest⟩ := wfF_node_parts hw
    intro i hilen
    rw [length_flattenF_node] at hilen
    have hABrfl : flattenF (Forest.node e ch rest) = flattenF ch ++ e :: flattenF rest := rfl
    rcases Nat.lt_trichotomy i (flattenF ch).length with hc | hc | hc
    · -- position inside the children block
      have hx : evAt (flattenF (Forest.node e ch rest)) i = evAt (flattenF ch) i := by
        rw [hABrfl]; exact evAt_append_lt hc
      have hdrop : (flattenF (Forest.node e ch rest)).drop (i + 1) =
          (flattenF ch).drop (i + 1) ++ e :: flattenF rest := by
        rw [hABrfl]; exact List.drop_append_of_le_length (by omega)
      have hIH := ihc hch i hc
      rw [fPP_node_lt hc]
      unfold parentIdx at hIH ⊢
      rw [hx, hdrop]
      cases hfp : findParentFrom (evAt (flattenF ch) i) ((flattenF ch).drop (i + 1)) with
      | some q =>
        rw [findParentFrom_append_some _ hfp]
        rw [hfp, Option.map_some'] at hIH
        rw [Option.map_some', ← hIH, Option.getD_some]
      | none =>
        rw [hfp] at hIH
        simp only [Option.map_none'] at hIH
        rw [findParentFrom_append_none _ hfp]
        have hmem := evAt_mem hc
        have hcont : containsEv e (evAt (flattenF ch) i) = true := by
          have ha := wfF_enter_lb hch _ hmem
          have hb := wfF_exit_ub hch _ hmem
          simp [containsEv, ha, hb]
        have hfind : findParentFrom (evAt (flattenF ch) i) (e :: flattenF rest) = some 0 := by
          simp [findParentFrom, hcont]
        rw [hfind, ← hIH]
        simp only [Option.map_some', Option.map_none', Option.getD_none, List.length_drop]
        congr 1
        omega
    · -- the node's own position
      subst hc
      have hx : evAt (flattenF (Forest.node e ch rest)) (flattenF ch).length = e := by
        rw [hABrfl]
        have h0 := evAt_append_shift (flattenF ch) (e :: flattenF rest) 0
        simpa [evAt] using h0
      have hdrop : (flattenF (Forest.node e ch rest)).drop ((flattenF ch).length + 1) =
          flattenF rest := by
        rw [hABrfl, List.drop_append_eq_append_drop]
        have h4 : (flattenF ch).drop ((flattenF ch).length + 1) = [] :=
          List.drop_eq_nil_of_le (by omega)
        have h5 : (flattenF ch).length + 1 - (flattenF ch).length = 1 := by omega
        rw [h4, h5]
        simp
      rw [fPP_node_self]
      unfold parentIdx
      rw [hx, hdrop, findParentFrom_none ?hnone]
      · rfl
      case hnone =>
        intro y hy
        have h6 := wfF_enter_lb hrest y hy
        have hlt : e.t_enter < y.t_enter := by
          have h7 := le_max_left (e.t_enter + 1) e.t_exit
          omega
        simp only [containsEv, Bool.and_eq_false_iff, decide_eq_false_iff_not, not_le]
        left
        omega
    · -- position inside the later siblings block
      have hik : i = (flattenF ch).length + 1 + (i - ((flattenF ch).length + 1)) := by omega
      set m := (flattenF ch).length with hm
      set k := i - (m + 1) with hk
      have hkr : k < (flattenF rest).length := by omega
      have hx : evAt (flattenF (Forest.node e ch rest)) i = evAt (flattenF rest) k := by
        rw [hABrfl]
        have h0 : i = (flattenF ch).length + (k + 1) := by omega
        rw [h0, evAt_append_shift]
        simp [evAt]
      have hdrop : (flattenF (Forest.node e ch rest)).drop (i + 1) =
          (flattenF rest).drop (k + 1) := by
        rw [hABrfl, List.drop_append_eq_append_drop]
        have h4 : (flattenF ch).drop (i + 1) = [] :=
          List.drop_eq_nil_of_le (by omega)
        have h5 : i + 1 - (flattenF ch).length = k + 2 := by omega
        rw [h4, h5]
        simp [List.drop_drop]
      have hIH := ihr hrest k hkr
      rw [fPP_node_gt hc, ← hk]
      unfold parentIdx at hIH ⊢
      rw [hx, hdrop]
      cases hfp : findParentFrom (evAt (flattenF rest) k) ((flattenF rest).drop (k + 1)) with
      | none =>
        rw [hfp] at hIH
        rw [← hIH]
        simp
      | some q =>
        rw [hfp] at hIH
        simp only [Option.map_some'] at hIH
        rw [Option.map_some', ← hIH, Option.map_some']
        congr 1
        omega

/-! Sums of positional values over root / child positions. -/

/-- Per-post-order-position values of a forest, given by a function of each
node's event and children forest. -/
def posList (g : RawEvent → Forest → Int) : Forest → List Int
  | .nil => []
  | .node e ch rest => posList g ch ++ g e ch :: posList g rest

/-- Sum of `g` over the top-level nodes of a forest. -/
def topSum (g : RawEvent → Forest → Int) : Forest → Int
  | .nil => 0
  | .node e ch rest => g e ch + topSum g rest

theorem posList_length (g : RawEvent → Forest → Int) (f : Forest) :
    (posList g f).length = (flattenF f).length := by
  induction f with
  | nil => rfl
  | node e ch rest ihc ihr => simp [posList, flattenF, ihc, ihr]

theorem declExcl_eq_posList (f : Forest) :
    declExcl f = posList (fun e ch => duration e - sumDur (topRoots ch)) f := by
  induction f with
  | nil => rfl
  | node e ch rest ihc ihr => simp [declExcl, posList, ihc, ihr]

theorem declKids_eq_posList (f : Forest) :
    declKids f = posList (fun _ ch => sumDur (topRoots ch)) f := by
  induction f with
  | nil => rfl
  | node e ch rest ihc ihr => simp [declKids, posList, ihc, ihr]

theorem map_duration_eq_posList (f : Forest) :
    (flattenF f).map duration = posList (fun e _ => duration e) f := by
  induction f with
  | nil => rfl
  | node e ch rest ihc ihr => simp [flattenF, posList, ihc, ihr]

theorem range_split (m r : Nat) :
    List.range (m + 1 + r) = (List.range m ++ [m]) ++ (List.range r).map (m + 1 + ·) := by
  rw [List.range_add]
  congr 1
  exact List.range_succ m

theorem posList_getD_mid (g : RawEvent → Forest → Int) (e : RawEvent) (ch rest : Forest) :
    (posList g (.node e ch rest)).getD (flattenF ch).length 0 = g e ch := by
  have h0 := getD_append_shift (posList g ch) (g e ch :: posList g rest) 0 (0 : Int)
  rw [posList_length] at h0
  simpa [posList] using h0

theorem posList_getD_left (g : RawEvent → Forest → Int) (e : RawEvent) (ch rest : Forest)
    {i : Nat} (h : i < (flattenF ch).length) :
    (posList g (.node e ch rest)).getD i 0 = (posList g ch).getD i 0 := by
  have h0 : i < (posList g ch).length := by rw [posList_length]; exact h
  exact getD_append_lt h0 0

theorem posList_getD_right (g : RawEvent → Forest → Int) (e : RawEvent) (ch rest : Forest)
    (k : Nat) :
    (posList g (.node e ch rest)).getD ((flattenF ch).length + 1 + k) 0 =
      (posList g rest).getD k 0 := by
  have hsh := getD_append_shift (posList g ch ++ [g e ch]) (posList g rest) k (0 : Int)
  have hlen : (posList g ch ++ [g e ch]).length = (flattenF ch).length + 1 := by
    simp [posList_length]
  rw [hlen] at hsh
  rw [← hsh]
  congr 1
  simp [posList]

theorem sum_fPP_none (g : RawEvent → Forest → Int) (f : Forest) :
    ((((List.range (flattenF f).length).filter fun i => fPP f i = none).map
      fun i => (posList g f).getD i 0).sum) = topSum g f := by
  induction f with
  | nil => simp [flattenF, topSum]
  | node e ch rest ihc ihr =>
    rw [length_flattenF_node, range_split, List.filter_append, List.filter_append,
      List.map_append, List.map_append, List.sum_append, List.sum_append]
    have hpart1 : ((List.range (flattenF ch).length).filter
        fun i => fPP (.node e ch rest) i = none) = [] := by
      rw [List.filter_eq_nil_iff]
      intro i hi
      rw [List.mem_range] at hi
      simp [fPP_node_lt hi]
    have hpart2 : (([(flattenF ch).length] : List Nat).filter
        fun i => fPP (.node e ch rest) i = none) = [(flattenF ch).length] := by
      simp [fPP_node_self]
    have hpart3 : (((List.range (flattenF rest).length).map ((flattenF ch).length + 1 + ·)).filter
        fun i => fPP (.node e ch rest) i = none) =
        (((List.range (flattenF rest).length).filter fun i => fPP rest i = none)).map
          ((flattenF ch).length + 1 + ·) := by
      rw [List.filter_map]
      congr 1
      apply List.filter_congr
      intro i _
      have hgt : (flattenF ch).length < (flattenF ch).length + 1 + i := by omega
      have harith : (flattenF ch).length + 1 + i - ((flattenF ch).length + 1) = i := by omega
      simp only [Function.comp_apply, fPP_node_gt hgt, harith]
      cases fPP rest i <;> simp
    rw [hpart1, hpart2, hpart3]
    simp only [List.map_nil, List.sum_nil, List.map_cons, List.sum_cons, List.map_nil,
      List.sum_nil, List.map_map]
    rw [posList_getD_mid]
    have hmapright : (((List.range (flattenF rest).length).filter fun i => fPP rest i = none).map
        ((fun i => (posList g (.node e ch rest)).getD i 0) ∘ ((flattenF ch).length + 1 + ·))) =
        (((List.range (flattenF rest).length).filter fun i => fPP rest i = none).map
          fun i => (posList g rest).getD i 0) := by
      apply List.map_congr_left
      intro i _
      simp only [Function.comp_apply]
      exact posList_getD_right g e ch rest i
    rw [hmapright, ihr]
    simp [topSum]

theorem sum_fPP_some (g : RawEvent → Forest → Int) (f : Forest) (j : Nat) :
    ((((List.range (flattenF f).length).filter fun i => fPP f i = some j).map
      fun i => (posList g f).getD i 0).sum) =
      (posList (fun _ ch => topSum g ch) f).getD j 0 := by
  induction f generalizing j with
  | nil => simp [flattenF, posList]
  | node e ch rest ihc ihr =>
    rw [length_flattenF_node, range_split, List.filter_append, List.filter_append,
      List.map_append, List.map_append, List.sum_append, List.sum_append]
    rcases Nat.lt_trichotomy j (flattenF ch).length with hj | hj | hj
    · -- the target position lies inside the children block
      have hpart1 : ((List.range (flattenF ch).length).filter
          fun i => fPP (.node e ch rest) i = some j) =
          ((List.range (flattenF ch).length).filter fun i => fPP ch i = some j) := by
        apply List.filter_congr
        intro i hi
        rw [List.mem_range] at hi
        rw [fPP_node_lt hi]
        cases hfp : fPP ch i with
        | none =>
          have : (flattenF ch).length ≠ j := by omega
          simp [this]
        | some q => simp
      have hpart2 : (([(flattenF ch).length] : List Nat).filter
          fun i => fPP (.node e ch rest) i = some j) = [] := by
        simp [fPP_node_self]
      have hpart3 : (((List.range (flattenF rest).length).map
          ((flattenF ch).length + 1 + ·)).filter
          fun i => fPP (.node e ch rest) i = some j) = [] := by
        rw [List.filter_eq_nil_iff]
        intro a ha
        rw [List.mem_map] at ha
        obtain ⟨i, _, rfl⟩ := ha
        have hgt : (flattenF ch).length < (flattenF ch).length + 1 + i := by omega
        rw [fPP_node_gt hgt]
        cases fPP rest ((flattenF ch).length + 1 + i - ((flattenF ch).length + 1)) with
        | none => simp
        | some q => simp; omega
      rw [hpart1, hpart2, hpart3]
      have hmap1 : (((List.range (flattenF ch).length).filter fun i => fPP ch i = some j).map
          fun i => (posList g (.node e ch rest)).getD i 0) =
          (((List.range (flattenF ch).length).filter fun i => fPP ch i = some j).map
            fun i => (posList g ch).getD i 0) := by
        apply List.map_congr_left
        intro i hi
        have hi2 := List.mem_range.mp (List.mem_filter.mp hi).1
        exact posList_getD_left g e ch rest hi2
      rw [hmap1, ihc]
      have hgetj : (posList (fun _ ch => topSum g ch) (.node e ch rest)).getD j 0 =
          (posList (fun _ ch => topSum g ch) ch).getD j 0 :=
        posList_getD_left _ e ch rest hj
      rw [hgetj]
      simp
    · -- the target position is the node itself: children are the top roots of ch
      subst hj
      have hpart1 : ((List.range (flattenF ch).length).filter
          fun i => fPP (.node e ch rest) i = some (flattenF ch).length) =
          ((List.range (flattenF ch).length).filter fun i => fPP ch i = none) := by
        apply List.filter_congr
        intro i hi
        rw [List.mem_range] at hi
        rw [fPP_node_lt hi]
        cases hfp : fPP ch i with
        | none => simp
        | some q =>
          have := fPP_lt hfp
          have : q ≠ (flattenF ch).length := by omega
          simp [this]
      have hpart2 : (([(flattenF ch).length] : List Nat).filter
          fun i => fPP (.node e ch rest) i = some (flattenF ch).length) = [] := by
        simp [fPP_node_self]
      have hpart3 : (((List.range (flattenF rest).length).map
          ((flattenF ch).length + 1 + ·)).filter
          fun i => fPP (.node e ch rest) i = some (flattenF ch).length) = [] := by
        rw [List.filter_eq_nil_iff]
        intro a ha
        rw [List.mem_map] at ha
        obtain ⟨i, _, rfl⟩ := ha
        have hgt : (flattenF ch).length < (flattenF ch).length + 1 + i := by omega
        rw [fPP_node_gt hgt]
        cases fPP rest ((flattenF ch).length + 1 + i - ((flattenF ch).length + 1)) with
        | none => simp
        | some q => simp; omega
      rw [hpart1, hpart2, hpart3]
      have hmap1 : (((List.range (flattenF ch).length).filter fun i => fPP ch i = none).map
          fun i => (posList g (.node e ch rest)).getD i 0) =
          (((List.range (flattenF ch).length).filter fun i => fPP ch i = none).map
            fun i => (posList g ch).getD i 0) := by
        apply List.map_congr_left
        intro i hi
        have hi2 := List.mem_range.mp (List.mem_filter.mp hi).1
        exact posList_getD_left g e ch rest hi2
      rw [hmap1, sum_fPP_none g ch, posList_getD_mid]
      simp
    · -- the target position lies inside the later siblings block
      have hpart1 : ((List.range (flattenF ch).length).filter
          fun i => fPP (.node e ch rest) i = some j) = [] := by
        rw [List.filter_eq_nil_iff]
        intro i hi
        rw [List.mem_range] at hi
        rw [fPP_node_lt hi]
        cases hfp : fPP ch i with
        | none =>
          have : (flattenF ch).length ≠ j := by omega
          simp [this]
        | some q =>
          have := fPP_lt hfp
          have : q ≠ j := by omega
          simp [this]
      have hpart2 : (([(flattenF ch).length] : List Nat).filter
          fun i => fPP (.node e ch rest) i = some j) = [] := by
        simp [fPP_node_self]
      have hpart3 : (((List.range (flattenF rest).length).map
          ((flattenF ch).length + 1 + ·)).filter
          fun i => fPP (.node e ch rest) i = some j) =
          (((List.range (flattenF rest).length).filter
            fun i => fPP rest i = some (j - ((flattenF ch).length + 1))).map
            ((flattenF ch).length + 1 + ·)) := by
        rw [List.filter_map]
        congr 1
        apply List.filter_congr
        intro i _
        have hgt : (flattenF ch).length < (flattenF ch).length + 1 + i := by omega
        have harith : (flattenF ch).length + 1 + i - ((flattenF ch).length + 1) = i := by omega
        simp only [Function.comp_apply, fPP_node_gt hgt, harith]
        cases fPP rest i with
        | none => simp
        | some q =>
          simp only [Option.map_some', Option.some_inj, decide_eq_decide]
          omega
      rw [hpart1, hpart2, hpart3]
      have hmapright : (((List.range (flattenF rest).length).filter
          fun i => fPP rest i = some (j - ((flattenF ch).length + 1))).map
          ((fun i => (posList g (.node e ch rest)).getD i 0) ∘
            ((flattenF ch).length + 1 + ·))) =
          (((List.range (flattenF rest).length).filter
            fun i => fPP rest i = some (j - ((flattenF ch).length + 1))).map
            fun i => (posList g rest).getD i 0) := by
        apply List.map_congr_left
        intro i _
        simp only [Function.comp_apply]
        exact posList_getD_right g e ch rest i
      rw [List.map_map, hmapright, ihr]
      have hgetj : (posList (fun _ ch => topSum g ch) (.node e ch rest)).getD j 0 =
          (posList (fun _ ch => topSum g ch) rest).getD (j - ((flattenF ch).length + 1)) 0 := by
        have h0 := posList_getD_right (fun _ ch => topSum g ch) e ch rest
          (j - ((flattenF ch).length + 1))
        have h1 : (flattenF ch).length + 1 + (j - ((flattenF ch).length + 1)) = j := by omega
        rw [h1] at h0
        exact h0
      rw [hgetj]
      simp

theorem topSum_duration (f : Forest) :
    topSum (fun e _ => duration e) f = sumDur (topRoots f) := by
  induction f with
  | nil => rfl
  | node e ch rest _ ihr => simp [topSum, topRoots, sumDur, ihr]

theorem posList_congr {g1 g2 : RawEvent → Forest → Int}
    (h : ∀ e ch, g1 e ch = g2 e ch) (f : Forest) : posList g1 f = posList g2 f := by
  induction f with
  | nil => rfl
  | node e ch rest ihc ihr => simp [posList, ihc, ihr, h]

theorem posList_sub (g1 g2 : RawEvent → Forest → Int) (f : Forest) (j : Nat) :
    (posList (fun e ch => g1 e ch - g2 e ch) f).getD j 0 =
      (posList g1 f).getD j 0 - (posList g2 f).getD j 0 := by
  induction f generalizing j with
  | nil => simp [posList]
  | node e ch rest ihc ihr =>
    rcases Nat.lt_trichotomy j (flattenF ch).length with hj | hj | hj
    · rw [posList_getD_left _ e ch rest hj, posList_getD_left _ e ch rest hj,
        posList_getD_left _ e ch rest hj, ihc]
    · subst hj
      rw [posList_getD_mid, posList_getD_mid, posList_getD_mid]
    · have h1 : (flattenF ch).length + 1 + (j - ((flattenF ch).length + 1)) = j := by omega
      have e1 := posList_getD_right (fun e ch => g1 e ch - g2 e ch) e ch rest
        (j - ((flattenF ch).length + 1))
      have e2 := posList_getD_right g1 e ch rest (j - ((flattenF ch).length + 1))
      have e3 := posList_getD_right g2 e ch rest (j - ((flattenF ch).length + 1))
      rw [h1] at e1 e2 e3
      rw [e1, e2, e3, ihr]

theorem map_duration_getD {ev : List RawEvent} {i : Nat} (h : i < ev.length) :
    (ev.map duration).getD i 0 = duration (evAt ev i) := by
  have h2 : i < (ev.map duration).length := by simpa
  rw [List.getD_eq_getElem _ _ h2, List.getElem_map, evAt, List.getD_eq_getElem _ _ h]

theorem childDurSum_flattenF {lo hi : Int} {f : Forest} (hw : wfF lo hi f = true)
    (j : Nat) : childDurSum (flattenF f) j = (declKids f).getD j 0 := by
  unfold childDurSum
  have hfilt : ((List.range (flattenF f).length).filter
      fun i => parentIdx (flattenF f) i = some j) =
      ((List.range (flattenF f).length).filter fun i => fPP f i = some j) := by
    apply List.filter_congr
    intro i hi
    rw [parentIdx_flattenF hw i (List.mem_range.mp hi)]
  rw [hfilt]
  have hmap : (((List.range (flattenF f).length).filter fun i => fPP f i = some j).map
      fun i => duration (evAt (flattenF f) i)) =
      (((List.range (flattenF f).length).filter fun i => fPP f i = some j).map
        fun i => (posList (fun e _ => duration e) f).getD i 0) := by
    apply List.map_congr_left
    intro i hi
    have hi2 := List.mem_range.mp (List.mem_filter.mp hi).1
    rw [← map_duration_eq_posList, map_duration_getD hi2]
  rw [hmap, sum_fPP_some, declKids_eq_posList]
  have := posList_congr (fun e ch => topSum_duration ch) f
  rw [this]

theorem declExcl_getD {f : Forest} {j : Nat} (hj : j < (flattenF f).length) :
    (declExcl f).getD j 0 = duration (evAt (flattenF f) j) - (declKids f).getD j 0 := by
  rw [declExcl_eq_posList, declKids_eq_posList]
  have h0 := posList_sub (fun e _ => duration e) (fun _ ch => sumDur (topRoots ch)) f j
  rw [h0, ← map_duration_eq_posList, map_duration_getD hj]

theorem rootFrames_snd_sum (f : Forest) :
    ((rootFrames f).map Prod.snd).sum =
      topSum (fun e ch => duration e - sumDur (topRoots ch)) f := by
  induction f with
  | nil => rfl
  | node e ch rest _ ihr =>
    simp only [rootFrames, topSum, List.map_append, List.sum_append, List.map_cons,
      List.map_nil, List.sum_cons, List.sum_nil, ihr]
    omega

theorem declCtracked_flattenF {lo hi : Int} {f : Forest} (hw : wfF lo hi f = true) :
    declCtracked (flattenF f) = threadCtracked (flattenF f) := by
  unfold declCtracked
  have hfilt : ((List.range (flattenF f).length).filter
      fun i => parentIdx (flattenF f) i = none) =
      ((List.range (flattenF f).length).filter fun i => fPP f i = none) := by
    apply List.filter_congr
    intro i hi
    rw [parentIdx_flattenF hw i (List.mem_range.mp hi)]
  rw [hfilt]
  have hmap : (((List.range (flattenF f).length).filter fun i => fPP f i = none).map
      fun i => (exclusivesOf (flattenF f)).getD i 0) =
      (((List.range (flattenF f).length).filter fun i => fPP f i = none).map
        fun i => (posList (fun e ch => duration e - sumDur (topRoots ch)) f).getD i 0) := by
    rw [exclusivesOf_flattenF hw, declExcl_eq_posList]
  rw [hmap, sum_fPP_none]
  unfold threadCtracked
  rw [rootStackOf_flattenF hw, rootFrames_snd_sum]

theorem sumDur_topRoots_le {lo hi : Int} {f : Forest} (hw : wfF lo hi f = true) :
    sumDur (topRoots f) ≤ max (hi - lo) 0 := by
  induction f generalizing lo hi with
  | nil => simp [topRoots, sumDur]
  | node e ch rest _ ihr =>
    obtain ⟨h1, h2, h3, _, hrest⟩ := wfF_node_parts hw
    have hr := ihr hrest
    simp only [topRoots, sumDur, List.map_cons, List.sum_cons] at *
    unfold duration
    unfold duration at hr
    omega

theorem declExcl_nonneg {lo hi : Int} {f : Forest} (hw : wfF lo hi f = true) :
    ∀ v ∈ declExcl f, 0 ≤ v := by
  induction f generalizing lo hi with
  | nil => simp [declExcl]
  | node e ch rest ihc ihr =>
    obtain ⟨h1, h2, h3, hch, hrest⟩ := wfF_node_parts hw
    intro v hv
    simp only [declExcl, List.mem_append, List.mem_cons] at hv
    rcases hv with hv | hv | hv
    · exact ihc hch v hv
    · have hle := sumDur_topRoots_le hch
      rcases max_choice (e.t_exit - e.t_enter) 0 with hm | hm <;> rw [hm] at hle <;>
        (rw [hv]; unfold duration; omega)
    · exact ihr hrest v hv

theorem sumDur_topRoots_nonneg {lo hi : Int} {f : Forest} (hw : wfF lo hi f = true) :
    0 ≤ sumDur (topRoots f) := by
  unfold sumDur
  apply List.sum_nonneg
  intro x hx
  rw [List.mem_map] at hx
  obtain ⟨y, hy, rfl⟩ := hx
  have hy2 := topRoots_subset_flattenF y hy
  have := wfF_dur_nonneg hw y hy2
  unfold duration
  omega

theorem topSum_excl_le_sumDur {lo hi : Int} {f : Forest} (hw : wfF lo hi f = true) :
    topSum (fun e ch => duration e - sumDur (topRoots ch)) f ≤ sumDur (topRoots f) := by
  induction f generalizing lo hi with
  | nil => simp [topSum, topRoots, sumDur]
  | node e ch rest _ ihr =>
    obtain ⟨h1, h2, h3, hch, hrest⟩ := wfF_node_parts hw
    have hr := ihr hrest
    have hchild := sumDur_topRoots_nonneg hch
    simp only [topSum, topRoots, sumDur, List.map_cons, List.sum_cons] at *
    omega

theorem threadCtracked_le {lo hi : Int} {f : Forest} (hw : wfF lo hi f = true)
    (hlh : lo ≤ hi) : threadCtracked (flattenF f) ≤ hi - lo := by
  rw [threadCtracked, rootStackOf_flattenF hw, rootFrames_snd_sum]
  have hb := sumDur_topRoots_le hw
  rw [max_eq_left (by omega : (0 : Int) ≤ hi - lo)] at hb
  exact le_trans (topSum_excl_le_sumDur hw) hb

/-! The aggregation pipeline: site registry, per-site statistics, result tables. -/

/-- Modelled from the spec: an instrumentation site, uniquely identified by
(filename, line, name). -/
structure Site where
  filename : String
  function_name : String
  line : Nat
deriving DecidableEq

/-- Position of a site in the registry, if already interned. -/
def siteIdxOf : List Site → Site → Option Nat
  | [], _ => none
  | t :: ts, s => if t = s then some 0 else (siteIdxOf ts s).map (· + 1)

/-- Modelled from the spec: `intern(filename, name, line) -> site_id`; the first
encounter appends the site, later calls return the cached handle. -/
def intern (reg : List Site) (s : Site) : List Site × Nat :=
  match siteIdxOf reg s with
  | some i => (reg, i)
  | none => (reg ++ [s], reg.length)

/-- Modelled from the spec: a per-thread buffer of closed events in exit order. -/
structure ThreadBuffer where
  thread_id : Nat
  events : List RawEvent
deriving DecidableEq

/-- Modelled from the spec: the profiler context: the site registry, the
per-thread buffers and the measurement window start. -/
structure CtrackState where
  sites : List Site
  buffers : List ThreadBuffer
  start_time : Int
deriving DecidableEq

/-- Modelled from the spec: caller-supplied result settings with defaults
`non_center_percent = 1`, `min_percent_active_exclusive = 0`,
`percent_exclude_fastest_active_exclusive = 0`. -/
structure ResultSettings where
  non_center_percent : Nat
  min_percent_active_exclusive : ℚ
  percent_exclude_fastest_active_exclusive : ℚ
deriving DecidableEq

def defaultSettings : ResultSettings := ⟨1, 0, 0⟩

/-- Sorting key for per-event pairs (exclusive, inclusive): ascending by
exclusive duration, ties broken by inclusive duration. -/
def pairLE (a b : Int × Int) : Prop :=
  a.1 < b.1 ∨ (a.1 = b.1 ∧ a.2 ≤ b.2)

instance : DecidableRel pairLE := fun a b => by
  unfold pairLE; exact instDecidableOr

instance : IsTotal (Int × Int) pairLE := ⟨by intro a b; unfold pairLE; omega⟩

instance : IsTrans (Int × Int) pairLE := ⟨by intro a b c; unfold pairLE; omega⟩

instance : IsAntisymm (Int × Int) pairLE := ⟨by
  intro a b h1 h2
  unfold pairLE at h1 h2
  have ha : a.1 = b.1 ∧ a.2 = b.2 := by omega
  exact Prod.ext ha.1 ha.2⟩

/-- Exact rational sum of a list of integer nanosecond values, as the code's
accumulation loop computes it. -/
def sumQ (l : List Int) : ℚ := l.foldl (fun a (x : Int) => a + (x : ℚ)) 0

/-- Mean of a list of integer durations (0 for an empty list). -/
def meanOf (l : List Int) : ℚ := if l.length = 0 then 0 else sumQ l / l.length

/-- Accumulated sum of squared deviations from the mean (the second pass of the
two-pass variance computation). -/
def varSumOf (l : List Int) : ℚ :=
  l.foldl (fun a (x : Int) => a + ((x : ℚ) - meanOf l) ^ 2) 0

/-- Modelled from the spec: squared standard deviation over a bracket, using
the population formula (division by `n`). -/
def sdSqOf (l : List Int) : ℚ := if l.length = 0 then 0 else varSumOf l / l.length

/-- Modelled from the spec: squared coefficient of variation `(sd/mean)^2`,
zero when the mean is zero. -/
def cvSqOf (l : List Int) : ℚ := if meanOf l = 0 then 0 else sdSqOf l / (meanOf l) ^ 2

/-- Median of an ascending list: middle element, or the mean of the two middle
elements for an even count. -/
def medianOf (l : List Int) : ℚ :=
  if l.length = 0 then 0
  else if l.length % 2 = 0 then
    ((l.getD (l.length / 2 - 1) 0 : ℚ) + (l.getD (l.length / 2) 0 : ℚ)) / 2
  else (l.getD (l.length / 2) 0 : ℚ)

/-- Modelled from the spec: number of fastest events removed by
`percent_exclude_fastest_active_exclusive` before bracketing. -/
def exDropCount (n : Nat) (x : ℚ) : Nat := (⌊(n : ℚ) * x / 100⌋).toNat

/-- Per-event (exclusive, inclusive) pairs sorted ascending by exclusive. -/
def sortPairs (l : List (Int × Int)) : List (Int × Int) := l.insertionSort pairLE

/-- Sorted pairs that remain after the fastest-event pre-filter. -/
def keptOf (settings : ResultSettings) (pairs : List (Int × Int)) : List (Int × Int) :=
  (sortPairs pairs).drop
    (exDropCount pairs.length settings.percent_exclude_fastest_active_exclusive)

/-- Modelled from the spec: bracket cut `floor(n * p / 100)`: the fastest and
the slowest bracket each take that many events, the center takes the rest (the
tests pin the single-event case to the center bracket). -/
def bracketCut (n p : Nat) : Nat := n * p / 100

def fastestOf (settings : ResultSettings) (pairs : List (Int × Int)) : List (Int × Int) :=
  let kept := keptOf settings pairs
  kept.take (bracketCut kept.length settings.non_center_percent)

def centerOf (settings : ResultSettings) (pairs : List (Int × Int)) : List (Int × Int) :=
  let kept := keptOf settings pairs
  let k := bracketCut kept.length settings.non_center_percent
  (kept.take (kept.length - k)).drop k

def slowestOf (settings : ResultSettings) (pairs : List (Int × Int)) : List (Int × Int) :=
  let kept := keptOf settings pairs
  let k := bracketCut kept.length settings.non_center_percent
  kept.drop (kept.length - k)

/-- All per-site statistics computed by the aggregator before filtering. -/
structure SiteStats where
  site_id : Nat
  filename : String
  function_name : String
  line : Nat
  calls : Nat
  threads : Nat
  time_a_all : Int
  time_ae_all : Int
  time_acc : Int
  center_time_a : Int
  center_time_ae : Int
  center_min : Int
  center_max : Int
  center_mean : ℚ
  center_med : ℚ
  sd_sq : ℚ
  cv_sq : ℚ
  fastest_min : Int
  fastest_mean : ℚ
  slowest_mean : ℚ
  slowest_max : Int
  fastest_range : Nat
  slowest_range : Nat
deriving DecidableEq

def siteOf (st : CtrackState) (s : Nat) : Site := st.sites.getD s ⟨"", "", 0⟩

/-- A thread's events paired with their exclusive durations. -/
def eventPairs (b : ThreadBuffer) : List (RawEvent × Int) :=
  b.events.zip (exclusivesOf b.events)

/-- Modelled from the spec: step 3 grouping: a site's per-event
(exclusive, inclusive) pairs collected across all threads. -/
def sitePairs (st : CtrackState) (s : Nat) : List (Int × Int) :=
  st.buffers.flatMap fun b =>
    ((eventPairs b).filter fun p => p.1.site_id = s).map fun p => (p.2, duration p.1)

def siteCalls (st : CtrackState) (s : Nat) : Nat := (sitePairs st s).length

/-- Number of distinct threads that produced events of the site. -/
def siteThreads (st : CtrackState) (s : Nat) : Nat :=
  (((st.buffers.filter fun b => b.events.any fun e2 => e2.site_id == s).map
    fun b => b.thread_id).dedup).length

/-- Modelled from the spec: steps 3, 5 and 6: one site's statistics row. -/
def buildRow (st : CtrackState) (settings : ResultSettings) (s : Nat) : SiteStats :=
  let pairs := sitePairs st s
  let site := siteOf st s
  let fastestEx := (fastestOf settings pairs).map Prod.fst
  let center := centerOf settings pairs
  let centerEx := center.map Prod.fst
  let slowestEx := (slowestOf settings pairs).map Prod.fst
  { site_id := s
    filename := site.filename
    function_name := site.function_name
    line := site.line
    calls := pairs.length
    threads := siteThreads st s
    time_a_all := (pairs.map Prod.snd).sum
    time_ae_all := (pairs.map Prod.fst).sum
    time_acc := (pairs.map Prod.snd).sum
    center_time_a := (center.map Prod.snd).sum
    center_time_ae := centerEx.sum
    center_min := centerEx.headD 0
    center_max := centerEx.getLastD 0
    center_mean := meanOf centerEx
    center_med := medianOf centerEx
    sd_sq := sdSqOf centerEx
    cv_sq := cvSqOf centerEx
    fastest_min := fastestEx.headD 0
    fastest_mean := meanOf fastestEx
    slowest_mean := meanOf slowestEx
    slowest_max := slowestEx.getLastD 0
    fastest_range := settings.non_center_percent
    slowest_range := 100 - settings.non_center_percent }

/-- Modelled from the spec: step 7: a site survives when
`100 * center_time_active_exclusive / time_ctracked` is not below
`min_percent_active_exclusive`. -/
def passesFilter (settings : ResultSettings) (tct : Int) (r : SiteStats) : Bool :=
  decide (settings.min_percent_active_exclusive ≤ 100 * (r.center_time_ae : ℚ) / (tct : ℚ))

/-- Modelled from the spec: step 8 ordering: descending by total exclusive
time, ties broken by ascending site id. -/
def rowBefore (a b : SiteStats) : Prop :=
  b.time_ae_all < a.time_ae_all ∨ (a.time_ae_all = b.time_ae_all ∧ a.site_id ≤ b.site_id)

instance : DecidableRel rowBefore := fun a b => by
  unfold rowBefore; exact instDecidableOr

structure SummaryRow where
  site_id : Nat
  filename : String
  function_name : String
  line : Nat
  calls : Nat
  time_a_all : Int
  time_ae_all : Int
  percent_ae_bracket : ℚ
  percent_ae_all : ℚ
deriving DecidableEq

structure DetailRow where
  site_id : Nat
  filename : String
  function_name : String
  line : Nat
  calls : Nat
  threads : Nat
  time_a_all : Int
  time_ae_all : Int
  time_acc : Int
  center_time_a : Int
  center_time_ae : Int
  center_min : Int
  center_max : Int
  center_mean : ℚ
  center_med : ℚ
  sd_sq : ℚ
  cv_sq : ℚ
  fastest_min : Int
  fastest_mean : ℚ
  slowest_mean : ℚ
  slowest_max : Int
  fastest_range : Nat
  slowest_range : Nat
deriving DecidableEq

structure ResultTables where
  summary : List SummaryRow
  details : List DetailRow
  start_time : Int
  end_time : Int
  time_total : Int
  time_ctracked : Int
  settings : ResultSettings
deriving DecidableEq

/-- Modelled from the spec: step 9 percent columns over the surviving rows. -/
def toSummary (totalEx totalCenter : ℚ) (r : SiteStats) : SummaryRow :=
  { site_id := r.site_id
    filename := r.filename
    function_name := r.function_name
    line := r.line
    calls := r.calls
    time_a_all := r.time_a_all
    time_ae_all := r.time_ae_all
    percent_ae_bracket := 100 * (r.center_time_ae : ℚ) / totalCenter
    percent_ae_all := 100 * (r.time_ae_all : ℚ) / totalEx }

def toDetail (r : SiteStats) : DetailRow :=
  { site_id := r.site_id
    filename := r.filename
    function_name := r.function_name
    line := r.line
    calls := r.calls
    threads := r.threads
    time_a_all := r.time_a_all
    time_ae_all := r.time_ae_all
    time_acc := r.time_acc
    center_time_a := r.center_time_a
    center_time_ae := r.center_time_ae
    center_min := r.center_min
    center_max := r.center_max
    center_mean := r.center_mean
    center_med := r.center_med
    sd_sq := r.sd_sq
    cv_sq := r.cv_sq
    fastest_min := r.fastest_min
    fastest_mean := r.fastest_mean
    slowest_mean := r.slowest_mean
    slowest_max := r.slowest_max
    fastest_range := r.fastest_range
    slowest_range := r.slowest_range }

/-- Modelled from the spec: the aggregator's `compute(settings)` (section 4.6):
drains are represented by the state's buffers; reconstructs nesting per thread,
groups by site, computes `time_ctracked`, brackets, statistics, filtering,
sorting and percent columns. -/
def computeTables (st : CtrackState) (settings : ResultSettings) (end_time : Int) :
    ResultTables :=
  let tct := (st.buffers.map fun b => threadCtracked b.events).sum
  let siteIds := (List.range st.sites.length).filter fun s => siteCalls st s ≠ 0
  let rows := siteIds.map (buildRow st settings)
  let kept := rows.filter (passesFilter settings tct)
  let sorted := kept.insertionSort rowBefore
  let totalEx : ℚ := ((sorted.map SiteStats.time_ae_all).sum : Int)
  let totalCenter : ℚ := ((sorted.map SiteStats.center_time_ae).sum : Int)
  { summary := sorted.map (toSummary totalEx totalCenter)
    details := sorted.map toDetail
    start_time := st.start_time
    end_time := end_time
    time_total := end_time - st.start_time
    time_ctracked := tct
    settings := settings }

/-- Modelled from the spec: `result_get_tables` computes the tables and drains:
every buffer is swapped for an empty one and the window restarts at the drain
time. -/
def resultGetTables (st : CtrackState) (settings : ResultSettings) (end_time : Int) :
    ResultTables × CtrackState :=
  (computeTables st settings end_time,
    { sites := st.sites
      buffers := st.buffers.map fun b => { thread_id := b.thread_id, events := [] }
      start_time := end_time })

/-! The persistence codec (spec section 4.7): little-endian, versioned binary
format with magic, site section, thread section and a footer with the time
window and a crc32 of the payload. -/

/-- Little-endian byte encoding of a natural number in `k` bytes. -/
def leBytes : Nat → Nat → List Nat
  | 0, _ => []
  | k + 1, v => v % 256 :: leBytes k (v / 256)

/-- Value of a little-endian byte sequence. -/
def leVal (bs : List Nat) : Nat := bs.foldr (fun b acc => b + 256 * acc) 0

/-- Two's-complement i64 encoding of an integer timestamp. -/
def i64Bytes (v : Int) : List Nat := leBytes 8 (v % (2 ^ 64 : Int)).toNat

/-- Decoded value of an 8-byte two's-complement sequence. -/
def i64Val (bs : List Nat) : Int :=
  let n := leVal bs
  if n < 2 ^ 63 then (n : Int) else (n : Int) - 2 ^ 64

/-- Reads exactly `k` bytes, returning them and the remaining input. -/
def readBytes (k : Nat) (bs : List Nat) : Option (List Nat × List Nat) :=
  if k ≤ bs.length then some (bs.take k, bs.drop k) else none

def readNat (k : Nat) (bs : List Nat) : Option (Nat × List Nat) :=
  (readBytes k bs).map fun p => (leVal p.1, p.2)

def readI64 (bs : List Nat) : Option (Int × List Nat) :=
  (readBytes 8 bs).map fun p => (i64Val p.1, p.2)

/-- Length-prefixed string encoding: `u16` length, then one byte per character. -/
def strBytes (s : String) : List Nat := leBytes 2 s.length ++ s.data.map Char.toNat

def readStr (bs : List Nat) : Option (String × List Nat) :=
  match readNat 2 bs with
  | none => none
  | some (n, bs1) =>
    match readBytes n bs1 with
    | none => none
    | some (cs, bs2) => some (String.mk (cs.map Char.ofNat), bs2)

/-- Modelled from the spec: one site record
`{u32 site_id, u16 len_file, bytes, u16 len_name, bytes, u32 line}`. -/
def siteBytes (p : Nat × Site) : List Nat :=
  leBytes 4 p.1 ++ strBytes p.2.filename ++ strBytes p.2.function_name ++ leBytes 4 p.2.line

def readSite (bs : List Nat) : Option ((Nat × Site) × List Nat) :=
  match readNat 4 bs with
  | none => none
  | some (i, bs1) =>
    match readStr bs1 with
    | none => none
    | some (file, bs2) =>
      match readStr bs2 with
      | none => none
      | some (name, bs3) =>
        match readNat 4 bs3 with
        | none => none
        | some (line, bs4) => some ((i, ⟨file, name, line⟩), bs4)

/-- Modelled from the spec: one event record `{u32 site_id, i64 t_enter, i64 t_exit}`. -/
def evBytes (e : RawEvent) : List Nat :=
  leBytes 4 e.site_id ++ i64Bytes e.t_enter ++ i64Bytes e.t_exit

def readEvent (bs : List Nat) : Option (RawEvent × List Nat) :=
  match readNat 4 bs with
  | none => none
  | some (sid, bs1) =>
    match readI64 bs1 with
    | none => none
    | some (ten, bs2) =>
      match readI64 bs2 with
      | none => none
      | some (tex, bs3) => some (⟨sid, ten, tex⟩, bs3)

/-- Reads `k` records with the given record reader. -/
def readList {α : Type} (rd : List Nat → Option (α × List Nat)) :
    Nat → List Nat → Option (List α × List Nat)
  | 0, bs => some ([], bs)
  | k + 1, bs =>
    match rd bs with
    | none => none
    | some (a, bs1) =>
      match readList rd k bs1 with
      | none => none
      | some (as2, bs2) => some (a :: as2, bs2)

/-- Modelled from the spec: one thread record
`{u64 thread_id, u64 event_count, events...}`. -/
def threadBytes (b : ThreadBuffer) : List Nat :=
  leBytes 8 b.thread_id ++ leBytes 8 b.events.length ++ b.events.flatMap evBytes

def readThread (bs : List Nat) : Option (ThreadBuffer × List Nat) :=
  match readNat 8 bs with
  | none => none
  | some (tid, bs1) =>
    match readNat 8 bs1 with
    | none => none
    | some (cnt, bs2) =>
      match readList readEvent cnt bs2 with
      | none => none
      | some (evs, bs3) => some (⟨tid, evs⟩, bs3)

/-- 8-byte magic of the event file. -/
def magicBytes : List Nat := [67, 84, 82, 75, 69, 86, 84, 49]

/-- Bitwise crc32 (polynomial 0xEDB88320) of the payload bytes. -/
def crc32 (bs : List Nat) : Nat :=
  (bs.foldl (fun crc b =>
    (List.range 8).foldl
      (fun c _ => if c % 2 = 1 then (c / 2) ^^^ 0xEDB88320 else c / 2)
      (crc ^^^ (b % 256))) 0xFFFFFFFF) ^^^ 0xFFFFFFFF

/-- Modelled from the spec: the payload: site section, thread section, and the
measurement window. -/
def payloadBytes (st : CtrackState) (end_time : Int) : List Nat :=
  leBytes 4 st.sites.length ++
    ((List.range st.sites.length).zip st.sites).flatMap siteBytes ++
    leBytes 4 st.buffers.length ++ st.buffers.flatMap threadBytes ++
    i64Bytes st.start_time ++ i64Bytes end_time

/-- Modelled from the spec: the full file: magic, `u32` version, `u32` reserved,
payload, `u32 crc32` of the payload. -/
def saveBytes (st : CtrackState) (end_time : Int) : List Nat :=
  magicBytes ++ leBytes 4 1 ++ leBytes 4 0 ++ payloadBytes st end_time ++
    leBytes 4 (crc32 (payloadBytes st end_time))

/-- Modelled from the spec: `save_events_to_file` persists the current raw
events and drains them: after a successful save the drained events are consumed. -/
def saveEventsToFile (st : CtrackState) (end_time : Int) : List Nat × CtrackState :=
  (saveBytes st end_time,
    { sites := st.sites
      buffers := st.buffers.map fun b => { thread_id := b.thread_id, events := [] }
      start_time := end_time })

/-- Re-interns the sites read from a file into the given registry, recording
the mapping from file site ids to the process's site ids. -/
def internAll (reg : List Site) (idMap : List (Nat × Nat)) :
    List (Nat × Site) → List Site × List (Nat × Nat)
  | [] => (reg, idMap)
  | p :: rest =>
    let r := intern reg p.2
    internAll r.1 (idMap ++ [(p.1, r.2)]) rest

def lookupId (m : List (Nat × Nat)) (i : Nat) : Nat :=
  ((m.find? fun p => p.1 = i).map Prod.snd).getD 0

def remapEv (m : List (Nat × Nat)) (e : RawEvent) : RawEvent :=
  ⟨lookupId m e.site_id, e.t_enter, e.t_exit⟩

/-- Modelled from the spec: reading the file back: checks magic, version and
crc; parses sites, threads and the window; re-interns the file's sites into a
fresh registry and remaps every event's site handle. Returns the reconstructed
profiler state and the recorded end time. -/
def loadState (bs : List Nat) : Option (CtrackState × Int) :=
  match readBytes 8 bs with
  | none => none
  | some (magic, bs1) =>
    if magic ≠ magicBytes then none else
    match readNat 4 bs1 with
    | none => none
    | some (ver, bs2) =>
      if ver ≠ 1 then none else
      match readNat 4 bs2 with
      | none => none
      | some (_, bs3) =>
        if bs3.length < 4 then none else
        let payload := bs3.take (bs3.length - 4)
        let crcStored := leVal (bs3.drop (bs3.length - 4))
        if crc32 payload ≠ crcStored then none else
        match readNat 4 payload with
        | none => none
        | some (nsites, p1) =>
          match readList readSite nsites p1 with
          | none => none
          | some (fileSites, p2) =>
            match readNat 4 p2 with
            | none => none
            | some (nthreads, p3) =>
              match readList readThread nthreads p3 with
              | none => none
              | some (fileThreads, p4) =>
                match readI64 p4 with
                | none => none
                | some (startT, p5) =>
                  match readI64 p5 with
                  | none => none
                  | some (endT, p6) =>
                    if p6 ≠ [] then none else
                    let r := internAll [] [] fileSites
                    some
                      ({ sites := r.1
                         buffers := fileThreads.map fun b =>
                           { thread_id := b.thread_id
                             events := b.events.map (remapEv r.2) }
                         start_time := startT }, endT)

/-- Bounds that make a timestamp representable as an i64. -/
def i64OK (v : Int) : Bool := decide (-(2 ^ 63) ≤ v) && decide (v < 2 ^ 63)

/-- All bounds that make a profiler state representable in the binary format. -/
def stateOK (st : CtrackState) (end_time : Int) : Bool :=
  decide (st.sites.length < 2 ^ 32) &&
    st.sites.all (fun s => decide (s.filename.length < 2 ^ 16) &&
      decide (s.function_name.length < 2 ^ 16) && decide (s.line < 2 ^ 32)) &&
    decide st.sites.Nodup &&
    decide (st.buffers.length < 2 ^ 32) &&
    st.buffers.all (fun b => decide (b.thread_id < 2 ^ 64) &&
      decide (b.events.length < 2 ^ 64) &&
      b.events.all fun ev => decide (ev.site_id < st.sites.length) &&
        i64OK ev.t_enter && i64OK ev.t_exit) &&
    i64OK st.start_time && i64OK end_time

/-! Round-trip lemmas for the codec. -/

theorem leBytes_length (k v : Nat) : (leBytes k v).length = k := by
  induction k generalizing v with
  | zero => rfl
  | succ k ih => simp [leBytes, ih]

theorem leVal_leBytes {k v : Nat} (h : v < 256 ^ k) : leVal (leBytes k v) = v := by
  induction k generalizing v with
  | zero => simp [leBytes, leVal]; omega
  | succ k ih =>
    have hdiv : v / 256 < 256 ^ k := by
      rw [Nat.div_lt_iff_lt_mul (by omega)]
      calc v < 256 ^ (k + 1) := h
        _ = 256 ^ k * 256 := by ring
    simp only [leBytes, leVal, List.foldr_cons]
    have := ih hdiv
    simp only [leVal] at this
    rw [this]
    omega

theorem readBytes_exact {A : List Nat} {k : Nat} (h : A.length = k) (rest : List Nat) :
    readBytes k (A ++ rest) = some (A, rest) := by
  subst h
  unfold readBytes
  rw [if_pos (by simp)]
  rw [List.take_left, List.drop_left]

theorem readNat_leBytes {k v : Nat} (h : v < 256 ^ k) (rest : List Nat) :
    readNat k (leBytes k v ++ rest) = some (v, rest) := by
  unfold readNat
  rw [readBytes_exact (leBytes_length k v) rest]
  simp [leVal_leBytes h]

theorem readI64_i64Bytes {v : Int} (h : i64OK v = true) (rest : List Nat) :
    readI64 (i64Bytes v ++ rest) = some (v, rest) := by
  simp only [i64OK, Bool.and_eq_true, decide_eq_true_eq] at h
  unfold readI64 i64Bytes
  rw [readBytes_exact (leBytes_length 8 _) rest]
  have hlt : (v % (2 ^ 64 : Int)).toNat < 256 ^ 8 := by
    have h2 : (0 : Int) ≤ v % (2 ^ 64 : Int) := Int.emod_nonneg v (by norm_num)
    have h3 : v % (2 ^ 64 : Int) < 2 ^ 64 := Int.emod_lt_of_pos v (by norm_num)
    omega
  rw [Option.map_some']
  simp only [i64Val, leVal_leBytes hlt]
  have h2 : (0 : Int) ≤ v % (2 ^ 64 : Int) := Int.emod_nonneg v (by norm_num)
  have h3 : v % (2 ^ 64 : Int) < 2 ^ 64 := Int.emod_lt_of_pos v (by norm_num)
  have h4 : v % (2 ^ 64 : Int) = v ∨ v % (2 ^ 64 : Int) = v + 2 ^ 64 := by omega
  rcases h4 with h4 | h4 <;> rw [h4] <;> norm_num <;> [skip; skip] <;> omega

theorem readStr_strBytes {s : String} (h : s.length < 2 ^ 16) (rest : List Nat) :
    readStr (strBytes s ++ rest) = some (s, rest) := by
  have h2 : s.length < 256 ^ 2 := by omega
  have hlen : (s.data.map Char.toNat).length = s.length := by
    rw [List.length_map]
    rfl
  have hid : s.data.map (Char.ofNat ∘ Char.toNat) = s.data := by
    have hpt : ∀ c ∈ s.data, (Char.ofNat ∘ Char.toNat) c = id c :=
      fun c _ => Char.ofNat_toNat c
    rw [List.map_congr_left hpt, List.map_id]
  unfold readStr strBytes
  rw [List.append_assoc]
  simp only [readNat_leBytes h2, readBytes_exact hlen, List.map_map, hid]

theorem readSite_siteBytes {i : Nat} {s : Site} (h1 : i < 2 ^ 32)
    (h2 : s.filename.length < 2 ^ 16) (h3 : s.function_name.length < 2 ^ 16)
    (h4 : s.line < 2 ^ 32) (rest : List Nat) :
    readSite (siteBytes (i, s) ++ rest) = some ((i, s), rest) := by
  unfold readSite siteBytes
  rw [List.append_assoc, List.append_assoc, List.append_assoc]
  simp only [readNat_leBytes (show i < 256 ^ 4 by omega), readStr_strBytes h2,
    readStr_strBytes h3, readNat_leBytes (show s.line < 256 ^ 4 by omega)]

theorem readEvent_evBytes {e : RawEvent} (h1 : e.site_id < 2 ^ 32)
    (h2 : i64OK e.t_enter = true) (h3 : i64OK e.t_exit = true) (rest : List Nat) :
    readEvent (evBytes e ++ rest) = some (e, rest) := by
  unfold readEvent evBytes
  rw [List.append_assoc, List.append_assoc]
  simp only [readNat_leBytes (show e.site_id < 256 ^ 4 by omega), readI64_i64Bytes h2,
    readI64_i64Bytes h3]

theorem readList_flatMap {α : Type} (rd : List Nat → Option (α × List Nat))
    (enc : α → List Nat) (l : List α) (rest : List Nat)
    (h : ∀ a ∈ l, ∀ r, rd (enc a ++ r) = some (a, r)) :
    readList rd l.length (l.flatMap enc ++ rest) = some (l, rest) := by
  induction l with
  | nil => simp [readList]
  | cons a as ih =>
    rw [List.flatMap_cons, List.append_assoc, List.length_cons]
    show readList rd (as.length + 1) (enc a ++ (as.flatMap enc ++ rest)) = _
    unfold readList
    simp only [h a (by simp), ih (fun x hx r => h x (by simp [hx]) r)]

theorem readThread_threadBytes {b : ThreadBuffer} (h1 : b.thread_id < 2 ^ 64)
    (h2 : b.events.length < 2 ^ 64)
    (h3 : ∀ ev ∈ b.events, ev.site_id < 2 ^ 32 ∧ i64OK ev.t_enter = true ∧
      i64OK ev.t_exit = true) (rest : List Nat) :
    readThread (threadBytes b ++ rest) = some (b, rest) := by
  have hevs : readList readEvent b.events.length (b.events.flatMap evBytes ++ rest) =
      some (b.events, rest) := by
    apply readList_flatMap
    intro ev hev r
    exact readEvent_evBytes (h3 ev hev).1 (h3 ev hev).2.1 (h3 ev hev).2.2 r
  unfold readThread threadBytes
  simp only [List.append_assoc]
  simp only [readNat_leBytes (show b.thread_id < 256 ^ 8 by omega),
    readNat_leBytes (show b.events.length < 256 ^ 8 by omega), hevs]

theorem crc_inner_lt (l : List Nat) (c : Nat) (h : c < 2 ^ 32) :
    l.foldl (fun c _ => if c % 2 = 1 then (c / 2) ^^^ 0xEDB88320 else c / 2) c < 2 ^ 32 := by
  induction l generalizing c with
  | nil => exact h
  | cons x xs ih =>
    rw [List.foldl_cons]
    apply ih
    by_cases hc : c % 2 = 1
    · rw [if_pos hc]
      exact Nat.xor_lt_two_pow (by omega) (by norm_num)
    · rw [if_neg hc]
      omega

theorem crc32_lt (bs : List Nat) : crc32 bs < 2 ^ 32 := by
  unfold crc32
  apply Nat.xor_lt_two_pow ?house (by norm_num)
  case house =>
    have hgen : ∀ (l : List Nat) (c : Nat), c < 2 ^ 32 →
        l.foldl (fun crc b =>
          (List.range 8).foldl
            (fun c _ => if c % 2 = 1 then (c / 2) ^^^ 0xEDB88320 else c / 2)
            (crc ^^^ (b % 256))) c < 2 ^ 32 := by
      intro l
      induction l with
      | nil => intro c h; exact h
      | cons x xs ih =>
        intro c h
        rw [List.foldl_cons]
        apply ih
        apply crc_inner_lt
        exact Nat.xor_lt_two_pow h (by omega)
    exact hgen bs 0xFFFFFFFF (by norm_num)

theorem siteIdxOf_eq_none {reg : List Site} {s : Site} (h : s ∉ reg) :
    siteIdxOf reg s = none := by
  induction reg with
  | nil => rfl
  | cons t ts ih =>
    have hne : t ≠ s := fun he => h (by simp [he])
    simp only [siteIdxOf, if_neg hne, Option.map_eq_none']
    exact ih fun hm => h (by simp [hm])

theorem internAll_go (post : List Site) :
    ∀ (pre : List Site) (idm : List (Nat × Nat)), (pre ++ post).Nodup →
      internAll pre idm ((List.range' pre.length post.length).zip post) =
        (pre ++ post, idm ++ (List.range' pre.length post.length).map fun i => (i, i)) := by
  induction post with
  | nil => intro pre idm _; simp [internAll]
  | cons s rest ih =>
    intro pre idm hnd
    rw [List.length_cons, List.range'_succ _ _ 1, List.zip_cons_cons]
    have hnotmem : s ∉ pre := by
      rw [List.nodup_append] at hnd
      exact fun hmem => hnd.2.2 hmem (by simp)
    unfold internAll intern
    rw [siteIdxOf_eq_none hnotmem]
    have hlen : (pre ++ [s]).length = pre.length + 1 := by simp
    have hih := ih (pre ++ [s]) (idm ++ [(pre.length, pre.length)])
      (by rw [List.append_assoc]; simpa using hnd)
    rw [hlen] at hih
    simp only [hih]
    simp [List.append_assoc, List.map_cons]

theorem internAll_range (sites : List Site) (h : sites.Nodup) :
    internAll [] [] ((List.range sites.length).zip sites) =
      (sites, (List.range sites.length).map fun i => (i, i)) := by
  have h0 := internAll_go sites [] [] (by simpa using h)
  simp only [List.length_nil, List.nil_append] at h0
  rw [List.range_eq_range']
  exact h0

theorem lookupId_range_go (k : Nat) :
    ∀ (a i : Nat), a ≤ i → i < a + k →
      lookupId ((List.range' a k).map fun j => (j, j)) i = i := by
  induction k with
  | zero => intro a i h1 h2; omega
  | succ k ih =>
    intro a i h1 h2
    rw [List.range'_succ _ _ 1, List.map_cons]
    unfold lookupId
    by_cases hai : a = i
    · subst hai
      simp [List.find?]
    · have hfind : ∀ r, List.find? (fun p => decide (p.1 = i)) ((a, a) :: r) =
          List.find? (fun p => decide (p.1 = i)) r := by
        intro r
        simp [List.find?, hai]
      rw [hfind]
      have := ih (a + 1) i (by omega) (by omega)
      unfold lookupId at this
      exact this

theorem lookupId_range {n i : Nat} (h : i < n) :
    lookupId ((List.range n).map fun j => (j, j)) i = i := by
  rw [List.range_eq_range']
  exact lookupId_range_go n 0 i (by omega) (by omega)

theorem loadState_saveBytes {st : CtrackState} {e : Int} (h : stateOK st e = true) :
    loadState (saveBytes st e) = some (st, e) := by
  simp only [stateOK, Bool.and_eq_true, decide_eq_true_eq, List.all_eq_true] at h
  obtain ⟨⟨⟨⟨⟨⟨hns, hsites⟩, hnd⟩, hnb⟩, hbufs⟩, hstart⟩, hend⟩ := h
  have hsbound : ∀ p ∈ (List.range st.sites.length).zip st.sites, ∀ r,
      readSite (siteBytes p ++ r) = some (p, r) := by
    intro p hp r
    obtain ⟨hp1, hp2⟩ := List.of_mem_zip hp
    rw [List.mem_range] at hp1
    have hb := hsites p.2 hp2
    obtain ⟨⟨hb1, hb2⟩, hb3⟩ := hb
    obtain ⟨i, s⟩ := p
    exact readSite_siteBytes (by omega) hb1 hb2 hb3 r
  have htbound : ∀ b ∈ st.buffers, ∀ r,
      readThread (threadBytes b ++ r) = some (b, r) := by
    intro b hb r
    obtain ⟨⟨hb1, hb2⟩, hb3⟩ := hbufs b hb
    apply readThread_threadBytes hb1 hb2
    intro ev hev
    obtain ⟨⟨he1, he2⟩, he3⟩ := hb3 ev hev
    exact ⟨by omega, he2, he3⟩
  have hziplen : ((List.range st.sites.length).zip st.sites).length =
      st.sites.length := by
    simp
  have hsitesec := readList_flatMap readSite siteBytes
    ((List.range st.sites.length).zip st.sites)
    (leBytes 4 st.buffers.length ++ (st.buffers.flatMap threadBytes ++
      (i64Bytes st.start_time ++ i64Bytes e))) hsbound
  rw [hziplen] at hsitesec
  have hthreadsec : readList readThread st.buffers.length
      (st.buffers.flatMap threadBytes ++ (i64Bytes st.start_time ++ i64Bytes e)) =
      some (st.buffers, i64Bytes st.start_time ++ i64Bytes e) :=
    readList_flatMap readThread threadBytes _ _ htbound
  have hpayload : readNat 4 (payloadBytes st e) =
      some (st.sites.length,
        ((List.range st.sites.length).zip st.sites).flatMap siteBytes ++
          (leBytes 4 st.buffers.length ++ (st.buffers.flatMap threadBytes ++
            (i64Bytes st.start_time ++ i64Bytes e)))) := by
    unfold payloadBytes
    simp only [List.append_assoc]
    exact readNat_leBytes (by omega) _
  have hplen : (payloadBytes st e ++ leBytes 4 (crc32 (payloadBytes st e))).length =
      (payloadBytes st e).length + 4 := by
    simp [leBytes_length]
  have hidx : (payloadBytes st e).length + (leBytes 4 (crc32 (payloadBytes st e))).length - 4 =
      (payloadBytes st e).length := by
    rw [leBytes_length]
    omega
  have hc4 : 4 ≤ (payloadBytes st e).length + (leBytes 4 (crc32 (payloadBytes st e))).length := by
    rw [leBytes_length]
    omega
  have hcrcval : leVal (leBytes 4 (crc32 (payloadBytes st e))) = crc32 (payloadBytes st e) := by
    have := crc32_lt (payloadBytes st e)
    exact leVal_leBytes (by omega)
  have hendread : readI64 (i64Bytes e) = some (e, []) := by
    have h0 := readI64_i64Bytes hend []
    simpa using h0
  have hremap : (st.buffers.map fun b =>
      ThreadBuffer.mk b.thread_id
        (b.events.map (remapEv ((List.range st.sites.length).map fun i => (i, i))))) =
      st.buffers := by
    have hpt : ∀ b ∈ st.buffers, ThreadBuffer.mk b.thread_id
        (b.events.map (remapEv ((List.range st.sites.length).map fun i => (i, i)))) =
        id b := by
      intro b hb
      obtain ⟨_, hb3⟩ := hbufs b hb
      have hevmap : b.events.map
          (remapEv ((List.range st.sites.length).map fun i => (i, i))) = b.events := by
        have hpt2 : ∀ ev ∈ b.events,
            remapEv ((List.range st.sites.length).map fun i => (i, i)) ev = id ev := by
          intro ev hev
          obtain ⟨⟨he1, _⟩, _⟩ := hb3 ev hev
          unfold remapEv
          rw [lookupId_range he1]
          rfl
        rw [List.map_congr_left hpt2, List.map_id]
      rw [hevmap]
      rfl
    rw [List.map_congr_left hpt, List.map_id]
  unfold loadState saveBytes
  simp only [List.append_assoc]
  simp [readBytes_exact (show magicBytes.length = 8 from rfl),
    readNat_leBytes (show (1 : Nat) < 256 ^ 4 by norm_num),
    readNat_leBytes (show (0 : Nat) < 256 ^ 4 by norm_num),
    readNat_leBytes (show st.buffers.length < 256 ^ 4 by omega),
    hidx, hc4, List.take_left, List.drop_left, hcrcval, hpayload, hsitesec, hthreadsec,
    readI64_i64Bytes hstart, hendread,
    internAll_range st.sites hnd, hremap]

/-! Statistics lemmas: the accumulation loops compute the declarative sums. -/

theorem foldl_add_cast (l : List Int) (a : ℚ) :
    l.foldl (fun acc (x : Int) => acc + (x : ℚ)) a =
      a + (l.map fun x : Int => (x : ℚ)).sum := by
  induction l generalizing a with
  | nil => simp
  | cons x xs ih =>
    rw [List.foldl_cons, ih, List.map_cons, List.sum_cons]
    ring

theorem sumQ_eq (l : List Int) : sumQ l = (l.map fun x : Int => (x : ℚ)).sum := by
  rw [sumQ, foldl_add_cast]
  ring

theorem foldl_add_sq (l : List Int) (m : ℚ) (a : ℚ) :
    l.foldl (fun acc (x : Int) => acc + ((x : ℚ) - m) ^ 2) a =
      a + (l.map fun x : Int => ((x : ℚ) - m) ^ 2).sum := by
  induction l generalizing a with
  | nil => simp
  | cons x xs ih =>
    rw [List.foldl_cons, ih, List.map_cons, List.sum_cons]
    ring

theorem varSumOf_eq (l : List Int) :
    varSumOf l = (l.map fun x : Int => ((x : ℚ) - meanOf l) ^ 2).sum := by
  rw [varSumOf, foldl_add_sq]
  ring

theorem varSumOf_nonneg (l : List Int) : 0 ≤ varSumOf l := by
  rw [varSumOf_eq]
  apply List.sum_nonneg
  intro x hx
  rw [List.mem_map] at hx
  obtain ⟨y, _, rfl⟩ := hx
  positivity

theorem sdSqOf_nonneg (l : List Int) : 0 ≤ sdSqOf l := by
  unfold sdSqOf
  by_cases h : l.length = 0
  · simp [h]
  · rw [if_neg h]
    have h1 := varSumOf_nonneg l
    have h2 : (0 : ℚ) < l.length := by
      have : 0 < l.length := Nat.pos_of_ne_zero h
      exact_mod_cast this
    positivity

theorem sdSqOf_single (x : Int) : sdSqOf [x] = 0 := by
  unfold sdSqOf
  rw [varSumOf_eq]
  simp [meanOf, sumQ]

theorem cvSqOf_small {l : List Int} (h : l.length ≤ 1 ∨ meanOf l = 0) : cvSqOf l = 0 := by
  unfold cvSqOf
  rcases h with h | h
  · by_cases hm : meanOf l = 0
    · rw [if_pos hm]
    · rw [if_neg hm]
      match l, h with
      | [], _ => simp [sdSqOf]
      | [x], _ => simp [sdSqOf_single]
  · rw [if_pos h]

theorem cvSqOf_formula {l : List Int} (h : meanOf l ≠ 0) :
    cvSqOf l * (meanOf l) ^ 2 = sdSqOf l := by
  unfold cvSqOf
  rw [if_neg h]
  field_simp

/-! Bracket partition lemmas. -/

theorem fastestOf_eq (settings : ResultSettings) (pairs : List (Int × Int)) :
    fastestOf settings pairs = (keptOf settings pairs).take
      (bracketCut (keptOf settings pairs).length settings.non_center_percent) := rfl

theorem centerOf_eq (settings : ResultSettings) (pairs : List (Int × Int)) :
    centerOf settings pairs = ((keptOf settings pairs).take
      ((keptOf settings pairs).length -
        bracketCut (keptOf settings pairs).length settings.non_center_percent)).drop
      (bracketCut (keptOf settings pairs).length settings.non_center_percent) := rfl

theorem slowestOf_eq (settings : ResultSettings) (pairs : List (Int × Int)) :
    slowestOf settings pairs = (keptOf settings pairs).drop
      ((keptOf settings pairs).length -
        bracketCut (keptOf settings pairs).length settings.non_center_percent) := rfl

theorem bracketCut_le {n p : Nat} (hp : p ≤ 49) : 2 * bracketCut n p ≤ 98 * n / 100 := by
  unfold bracketCut
  have h1 : n * p / 100 ≤ n * 49 / 100 :=
    Nat.div_le_div_right (Nat.mul_le_mul_left n hp)
  have h2 : 2 * (n * 49 / 100) ≤ n * 98 / 100 := by
    have := Nat.mul_div_le (n * 49) 100
    have h3 : n * 49 / 100 * 100 ≤ n * 49 := Nat.div_mul_le_self _ _
    have h4 : 2 * (n * 49) = n * 98 := by ring
    have h5 := Nat.div_mul_le_self (n * 98) 100
    omega
  have h6 : n * 98 = 98 * n := by ring
  omega

theorem bracketCut_lt {n p : Nat} (hp : p ≤ 49) (hn : n ≠ 0) :
    2 * bracketCut n p < n := by
  have h1 := bracketCut_le (n := n) hp
  have h3 : 98 * n / 100 < n := by
    rw [Nat.div_lt_iff_lt_mul (by omega)]
    have : 0 < n := Nat.pos_of_ne_zero hn
    omega
  omega

theorem bracketCut_le_len (n p : Nat) (hp : p ≤ 49) : bracketCut n p ≤ n := by
  rcases Nat.eq_zero_or_pos n with h0 | h0
  · subst h0
    unfold bracketCut
    simp
  · have := bracketCut_lt (n := n) hp (by omega)
    omega

theorem bracket_partition (settings : ResultSettings) (pairs : List (Int × Int))
    (hp : settings.non_center_percent ≤ 49) :
    fastestOf settings pairs ++ centerOf settings pairs ++ slowestOf settings pairs =
      keptOf settings pairs ∧
    (fastestOf settings pairs).length =
      bracketCut (keptOf settings pairs).length settings.non_center_percent ∧
    (slowestOf settings pairs).length =
      bracketCut (keptOf settings pairs).length settings.non_center_percent ∧
    (keptOf settings pairs ≠ [] → centerOf settings pairs ≠ []) := by
  rw [fastestOf_eq, centerOf_eq, slowestOf_eq]
  generalize keptOf settings pairs = kept
  generalize hk : bracketCut kept.length settings.non_center_percent = k
  have hkle : k ≤ kept.length := hk ▸ bracketCut_le_len _ _ hp
  refine ⟨?part, ?flen, ?slen, ?cne⟩
  case part =>
    have h1 : (kept.take (kept.length - k)).take k = kept.take k := by
      rcases Nat.eq_zero_or_pos kept.length with h0 | h0
      · rw [List.take_take]
        congr 1
        omega
      · have h2k := hk ▸ bracketCut_lt hp (by omega)
        rw [List.take_take]
        congr 1
        omega
    calc kept.take k ++ (kept.take (kept.length - k)).drop k ++
          kept.drop (kept.length - k)
        = ((kept.take (kept.length - k)).take k ++
            (kept.take (kept.length - k)).drop k) ++
            kept.drop (kept.length - k) := by rw [h1]
      _ = kept.take (kept.length - k) ++ kept.drop (kept.length - k) := by
            rw [List.take_append_drop]
      _ = kept := List.take_append_drop _ _
  case flen =>
    rw [List.length_take]
    omega
  case slen =>
    rw [List.length_drop]
    omega
  case cne =>
    intro hne hnil
    have hlen : kept.length ≠ 0 := by simpa using hne
    have h2k := hk ▸ bracketCut_lt hp hlen
    have h0 : ((kept.take (kept.length - k)).drop k).length = 0 := by rw [hnil]; rfl
    rw [List.length_drop, List.length_take] at h0
    omega

/-! Membership in the result tables. -/

theorem keptOf_eq (settings : ResultSettings) (pairs : List (Int × Int)) :
    keptOf settings pairs = (sortPairs pairs).drop
      (exDropCount pairs.length settings.percent_exclude_fastest_active_exclusive) := rfl

theorem computeTables_details (st : CtrackState) (settings : ResultSettings) (e : Int) :
    (computeTables st settings e).details =
      (((((List.range st.sites.length).filter fun s => siteCalls st s ≠ 0).map
        (buildRow st settings)).filter
          (passesFilter settings
            ((st.buffers.map fun b => threadCtracked b.events).sum))).insertionSort
        rowBefore).map toDetail := rfl

theorem computeTables_summary (st : CtrackState) (settings : ResultSettings) (e : Int) :
    (computeTables st settings e).summary =
      (((((List.range st.sites.length).filter fun s => siteCalls st s ≠ 0).map
        (buildRow st settings)).filter
          (passesFilter settings
            ((st.buffers.map fun b => threadCtracked b.events).sum))).insertionSort
        rowBefore).map
        (toSummary
          ((((((List.range st.sites.length).filter fun s => siteCalls st s ≠ 0).map
            (buildRow st settings)).filter
              (passesFilter settings
                ((st.buffers.map fun b => threadCtracked b.events).sum))).insertionSort
            rowBefore).map SiteStats.time_ae_all).sum
          ((((((List.range st.sites.length).filter fun s => siteCalls st s ≠ 0).map
            (buildRow st settings)).filter
              (passesFilter settings
                ((st.buffers.map fun b => threadCtracked b.events).sum))).insertionSort
            rowBefore).map SiteStats.center_time_ae).sum) := rfl

theorem computeTables_tct (st : CtrackState) (settings : ResultSettings) (e : Int) :
    (computeTables st settings e).time_ctracked =
      ((st.buffers.map fun b => threadCtracked b.events).sum) := rfl

theorem buildRow_site_id (st : CtrackState) (settings : ResultSettings) (s : Nat) :
    (buildRow st settings s).site_id = s := rfl

theorem mem_stats_iff (st : CtrackState) (settings : ResultSettings) (s : Nat)
    (hs : s < st.sites.length) (hc : siteCalls st s ≠ 0) (r : SiteStats) :
    (r ∈ ((((List.range st.sites.length).filter fun i => siteCalls st i ≠ 0).map
      (buildRow st settings)).filter
        (passesFilter settings
          ((st.buffers.map fun b => threadCtracked b.events).sum))).insertionSort
      rowBefore ∧ r.site_id = s) ↔
    (r = buildRow st settings s ∧
      passesFilter settings ((st.buffers.map fun b => threadCtracked b.events).sum)
        (buildRow st settings s) = true) := by
  rw [(List.perm_insertionSort rowBefore _).mem_iff, List.mem_filter]
  constructor
  · rintro ⟨⟨hmem, hpass⟩, hsid⟩
    rw [List.mem_map] at hmem
    obtain ⟨i, _, rfl⟩ := hmem
    rw [buildRow_site_id] at hsid
    subst hsid
    exact ⟨rfl, hpass⟩
  · rintro ⟨rfl, hpass⟩
    refine ⟨⟨List.mem_map.mpr ⟨s, ?_, rfl⟩, hpass⟩, rfl⟩
    rw [List.mem_filter, List.mem_range]
    exact ⟨hs, by simpa using hc⟩

theorem detail_any_iff (st : CtrackState) (settings : ResultSettings) (e : Int) (s : Nat)
    (hs : s < st.sites.length) (hc : siteCalls st s ≠ 0) :
    (((computeTables st settings e).details.any fun r => r.site_id = s) = true) ↔
      passesFilter settings (computeTables st settings e).time_ctracked
        (buildRow st settings s) = true := by
  rw [computeTables_details, computeTables_tct, List.any_eq_true]
  constructor
  · rintro ⟨r, hmem, hsid⟩
    rw [List.mem_map] at hmem
    obtain ⟨q, hq, rfl⟩ := hmem
    have hq2 : q.site_id = s := by simpa [toDetail] using hsid
    exact ((mem_stats_iff st settings s hs hc q).mp ⟨hq, hq2⟩).2
  · intro hpass
    refine ⟨toDetail (buildRow st settings s), List.mem_map.mpr
      ⟨buildRow st settings s,
        ((mem_stats_iff st settings s hs hc _).mpr ⟨rfl, hpass⟩).1, rfl⟩, ?_⟩
    simp [toDetail, buildRow_site_id]

theorem summary_any_iff (st : CtrackState) (settings : ResultSettings) (e : Int) (s : Nat)
    (hs : s < st.sites.length) (hc : siteCalls st s ≠ 0) :
    (((computeTables st settings e).summary.any fun r => r.site_id = s) = true) ↔
      passesFilter settings (computeTables st settings e).time_ctracked
        (buildRow st settings s) = true := by
  rw [computeTables_summary, computeTables_tct, List.any_eq_true]
  constructor
  · rintro ⟨r, hmem, hsid⟩
    rw [List.mem_map] at hmem
    obtain ⟨q, hq, rfl⟩ := hmem
    have hq2 : q.site_id = s := by simpa [toSummary] using hsid
    exact ((mem_stats_iff st settings s hs hc q).mp ⟨hq, hq2⟩).2
  · intro hpass
    refine ⟨toSummary _ _ (buildRow st settings s), List.mem_map.mpr
      ⟨buildRow st settings s,
        ((mem_stats_iff st settings s hs hc _).mpr ⟨rfl, hpass⟩).1, rfl⟩, ?_⟩
    simp [toSummary, buildRow_site_id]

theorem detail_mem_of_passes (st : CtrackState) (settings : ResultSettings) (e : Int)
    (s : Nat) (hs : s < st.sites.length) (hc : siteCalls st s ≠ 0)
    (hp : passesFilter settings (computeTables st settings e).time_ctracked
      (buildRow st settings s) = true) :
    toDetail (buildRow st settings s) ∈ (computeTables st settings e).details := by
  rw [computeTables_details]
  exact List.mem_map.mpr ⟨buildRow st settings s,
    ((mem_stats_iff st settings s hs hc _).mpr ⟨rfl, by rw [← computeTables_tct st settings e]; exact hp⟩).1, rfl⟩

/-! Nonnegativity of exclusive times for properly nested states. -/

theorem topSum_excl_nonneg {lo hi : Int} {f : Forest} (hw : wfF lo hi f = true) :
    0 ≤ topSum (fun e ch => duration e - sumDur (topRoots ch)) f := by
  induction f generalizing lo hi with
  | nil => simp [topSum]
  | node e ch rest _ ihr =>
    obtain ⟨h1, h2, h3, hch, hrest⟩ := wfF_node_parts hw
    have hr := ihr hrest
    have hle := sumDur_topRoots_le hch
    simp only [topSum]
    have hdur : duration e = e.t_exit - e.t_enter := rfl
    omega

/-- A profiler state whose buffers are post-order flattenings of well-formed
scope forests within the window `[t0, t1]`. -/
def forestState (st : CtrackState) (fs : List (Nat × Forest)) (t0 t1 : Int) : Prop :=
  st.buffers = (fs.map fun p => ⟨p.1, flattenF p.2⟩) ∧
    ∀ p ∈ fs, wfF t0 t1 p.2 = true

theorem tct_nonneg {st : CtrackState} {fs : List (Nat × Forest)} {t0 t1 : Int}
    (hf : forestState st fs t0 t1) :
    0 ≤ (st.buffers.map fun b => threadCtracked b.events).sum := by
  obtain ⟨hst, hwf⟩ := hf
  rw [hst, List.map_map]
  apply List.sum_nonneg
  intro x hx
  rw [List.mem_map] at hx
  obtain ⟨p, hp, rfl⟩ := hx
  have hw := hwf p hp
  simp only [Function.comp_apply]
  rw [threadCtracked, rootStackOf_flattenF hw, rootFrames_snd_sum]
  exact topSum_excl_nonneg hw

theorem sitePairs_fst_nonneg {st : CtrackState} {fs : List (Nat × Forest)} {t0 t1 : Int}
    (hf : forestState st fs t0 t1) (s : Nat) :
    ∀ q ∈ sitePairs st s, 0 ≤ q.1 := by
  obtain ⟨hst, hwf⟩ := hf
  intro q hq
  rw [sitePairs, List.mem_flatMap] at hq
  obtain ⟨b, hb, hq2⟩ := hq
  rw [List.mem_map] at hq2
  obtain ⟨p, hp, rfl⟩ := hq2
  rw [List.mem_filter] at hp
  have hzip := List.of_mem_zip hp.1
  rw [hst, List.mem_map] at hb
  obtain ⟨pf, hpf, rfl⟩ := hb
  have hw := hwf pf hpf
  have hex : p.2 ∈ exclusivesOf (flattenF pf.2) := hzip.2
  rw [exclusivesOf_flattenF hw] at hex
  exact declExcl_nonneg hw p.2 hex

theorem center_sum_nonneg {st : CtrackState} {fs : List (Nat × Forest)} {t0 t1 : Int}
    (hf : forestState st fs t0 t1) (settings : ResultSettings) (s : Nat) :
    0 ≤ ((centerOf settings (sitePairs st s)).map Prod.fst).sum := by
  apply List.sum_nonneg
  intro x hx
  rw [List.mem_map] at hx
  obtain ⟨q, hq, rfl⟩ := hx
  have hq2 : q ∈ keptOf settings (sitePairs st s) := by
    rw [centerOf_eq] at hq
    exact List.mem_of_mem_take (List.mem_of_mem_drop hq)
  have hq3 : q ∈ sortPairs (sitePairs st s) := List.mem_of_mem_drop hq2
  have hq4 : q ∈ sitePairs st s :=
    (List.perm_insertionSort pairLE _).subset hq3
  exact sitePairs_fst_nonneg hf s q hq4

theorem passesFilter_of_zero_min {st : CtrackState} {fs : List (Nat × Forest)}
    {t0 t1 : Int} (hf : forestState st fs t0 t1) (settings : ResultSettings)
    (hmin : settings.min_percent_active_exclusive = 0) (s : Nat) :
    passesFilter settings ((st.buffers.map fun b => threadCtracked b.events).sum)
      (buildRow st settings s) = true := by
  unfold passesFilter
  rw [hmin]
  rw [decide_eq_true_eq]
  have hc : (0 : ℚ) ≤ ((buildRow st settings s).center_time_ae : ℚ) := by
    have h0 := center_sum_nonneg hf settings s
    have : (buildRow st settings s).center_time_ae =
        ((centerOf settings (sitePairs st s)).map Prod.fst).sum := rfl
    rw [this]
    exact_mod_cast h0
  have ht : (0 : ℚ) ≤ (((st.buffers.map fun b => threadCtracked b.events).sum : Int) : ℚ) := by
    exact_mod_cast tct_nonneg hf
  positivity

/-! Site-registry interning lemmas. -/

theorem siteIdxOf_some {reg : List Site} {s : Site} {i : Nat}
    (h : siteIdxOf reg s = some i) : reg.getD i ⟨"", "", 0⟩ = s ∧ i < reg.length := by
  induction reg generalizing i with
  | nil => simp [siteIdxOf] at h
  | cons t ts ih =>
    by_cases ht : t = s
    · simp only [siteIdxOf, if_pos ht] at h
      obtain rfl := Option.some_inj.mp h.symm
      exact ⟨ht, by simp⟩
    · simp only [siteIdxOf, if_neg ht] at h
      cases hfp : siteIdxOf ts s with
      | none => rw [hfp] at h; simp at h
      | some j =>
        rw [hfp] at h
        simp only [Option.map_some', Option.some_inj] at h
        subst h
        obtain ⟨hg, hl⟩ := ih hfp
        refine ⟨?_, by simp; omega⟩
        simpa [List.getD] using hg

theorem intern_getD (reg : List Site) (s : Site) :
    ((intern reg s).1).getD (intern reg s).2 ⟨"", "", 0⟩ = s ∧
      (intern reg s).2 < (intern reg s).1.length := by
  unfold intern
  cases hfp : siteIdxOf reg s with
  | some i =>
    obtain ⟨hg, hl⟩ := siteIdxOf_some hfp
    exact ⟨hg, hl⟩
  | none =>
    constructor
    · have h0 := getD_append_shift reg [s] 0 (⟨"", "", 0⟩ : Site)
      simp at h0
      simp [h0]
    · simp

theorem intern_extends (reg : List Site) (s : Site) {i : Nat} (hi : i < reg.length)
    (d : Site) : ((intern reg s).1).getD i d = reg.getD i d := by
  unfold intern
  cases siteIdxOf reg s with
  | some j => rfl
  | none => exact getD_append_lt hi d

theorem intern_distinct (reg : List Site) (a b : Site) (hab : a ≠ b) :
    (intern reg a).2 ≠ (intern (intern reg a).1 b).2 := by
  intro heq
  obtain ⟨hga, hla⟩ := intern_getD reg a
  obtain ⟨hgb, hlb⟩ := intern_getD (intern reg a).1 b
  have hstable : ((intern (intern reg a).1 b).1).getD (intern reg a).2 ⟨"", "", 0⟩ = a := by
    rw [intern_extends _ _ hla, hga]
  rw [heq, hgb] at hstable
  exact hab hstable.symm

/-! Order-independence of the aggregation over the set of thread buffers. -/

theorem sortPairs_perm_congr {l1 l2 : List (Int × Int)} (h : List.Perm l1 l2) :
    sortPairs l1 = sortPairs l2 :=
  List.eq_of_perm_of_sorted
    (((List.perm_insertionSort pairLE l1).trans h).trans
      (List.perm_insertionSort pairLE l2).symm)
    (List.sorted_insertionSort pairLE l1) (List.sorted_insertionSort pairLE l2)

theorem sitePairs_perm {sites : List Site} {bufs1 bufs2 : List ThreadBuffer} {t0 : Int}
    (h : List.Perm bufs1 bufs2) (s : Nat) :
    List.Perm (sitePairs ⟨sites, bufs1, t0⟩ s) (sitePairs ⟨sites, bufs2, t0⟩ s) :=
  h.flatMap_right _

theorem siteThreads_perm {sites : List Site} {bufs1 bufs2 : List ThreadBuffer} {t0 : Int}
    (h : List.Perm bufs1 bufs2) (s : Nat) :
    siteThreads ⟨sites, bufs1, t0⟩ s = siteThreads ⟨sites, bufs2, t0⟩ s := by
  unfold siteThreads
  exact (((h.filter _).map _).dedup).length_eq

theorem buildRow_perm {sites : List Site} {bufs1 bufs2 : List ThreadBuffer} {t0 : Int}
    (settings : ResultSettings) (h : List.Perm bufs1 bufs2) (s : Nat) :
    buildRow ⟨sites, bufs1, t0⟩ settings s = buildRow ⟨sites, bufs2, t0⟩ settings s := by
  have hpp := @sitePairs_perm sites bufs1 bufs2 t0 h s
  have hsort := sortPairs_perm_congr hpp
  have hlen := hpp.length_eq
  have hkept : keptOf settings (sitePairs ⟨sites, bufs1, t0⟩ s) =
      keptOf settings (sitePairs ⟨sites, bufs2, t0⟩ s) := by
    rw [keptOf_eq, keptOf_eq, hsort, hlen]
  have hfast : fastestOf settings (sitePairs ⟨sites, bufs1, t0⟩ s) =
      fastestOf settings (sitePairs ⟨sites, bufs2, t0⟩ s) := by
    rw [fastestOf_eq, fastestOf_eq, hkept]
  have hcent : centerOf settings (sitePairs ⟨sites, bufs1, t0⟩ s) =
      centerOf settings (sitePairs ⟨sites, bufs2, t0⟩ s) := by
    rw [centerOf_eq, centerOf_eq, hkept]
  have hslow : slowestOf settings (sitePairs ⟨sites, bufs1, t0⟩ s) =
      slowestOf settings (sitePairs ⟨sites, bufs2, t0⟩ s) := by
    rw [slowestOf_eq, slowestOf_eq, hkept]
  have hsumf : ((sitePairs ⟨sites, bufs1, t0⟩ s).map Prod.fst).sum =
      ((sitePairs ⟨sites, bufs2, t0⟩ s).map Prod.fst).sum := (hpp.map _).sum_eq
  have hsums : ((sitePairs ⟨sites, bufs1, t0⟩ s).map Prod.snd).sum =
      ((sitePairs ⟨sites, bufs2, t0⟩ s).map Prod.snd).sum := (hpp.map _).sum_eq
  have hthr := @siteThreads_perm sites bufs1 bufs2 t0 h s
  have hsite : siteOf ⟨sites, bufs1, t0⟩ s = siteOf ⟨sites, bufs2, t0⟩ s := rfl
  simp only [buildRow]
  rw [hfast, hcent, hslow, hlen, hsumf, hsums, hthr, hsite]

/-! Evaluation helpers: the fastest-event pre-filter drops nothing when the
exclusion percentage is zero. -/

theorem exDropCount_zero (n : Nat) : exDropCount n 0 = 0 := by
  unfold exDropCount
  norm_num

theorem keptOf_zero_excl {settings : ResultSettings}
    (h : settings.percent_exclude_fastest_active_exclusive = 0)
    (pairs : List (Int × Int)) : keptOf settings pairs = sortPairs pairs := by
  unfold keptOf
  rw [h, exDropCount_zero, List.drop_zero]

/-! The claims. -/

/-- Modelled from the claim under review: its direct-child test: `B` (at
position `i`) is a direct child of `A` (at position `j`) exactly when `B`
appears before `A` in the sequence and `B`'s interval lies within `A`'s. -/
def claimDirectChild (ev : List RawEvent) (i j : Nat) : Bool :=
  decide (i < j) && decide (j < ev.length) && containsEv (evAt ev j) (evAt ev i)

/-- The exclusive duration the claim's sentences force: inclusive duration
minus the summed inclusive durations of all claim-direct-children. -/
def claimExclusive (ev : List RawEvent) (j : Nat) : Int :=
  duration (evAt ev j) -
    (((List.range ev.length).filter fun i => claimDirectChild ev i j).map
      fun i => duration (evAt ev i)).sum

/-- Claim C1 counterexample: take three nested scopes, C inside B inside A,
recorded in exit order [C, B, A] with intervals [2,3] inside [1,4] inside
[0,5]. C appears before A and its interval lies within A's, so the claim's
characterisation makes C a direct child of both B and A, and its exclusive-time
sentence then forces A's exclusive to be 5 - (1 + 3) = 1; the aggregator's
stack reconstruction attributes C to B only and reports 2 for A. -/
theorem claim_C1_counterexample :
    claimDirectChild [⟨0, 2, 3⟩, ⟨0, 1, 4⟩, ⟨0, 0, 5⟩] 0 2 = true ∧
    claimDirectChild [⟨0, 2, 3⟩, ⟨0, 1, 4⟩, ⟨0, 0, 5⟩] 0 1 = true ∧
    parentIdx [⟨0, 2, 3⟩, ⟨0, 1, 4⟩, ⟨0, 0, 5⟩] 0 = some 1 ∧
    claimExclusive [⟨0, 2, 3⟩, ⟨0, 1, 4⟩, ⟨0, 0, 5⟩] 2 = 1 ∧
    (exclusivesOf [⟨0, 2, 3⟩, ⟨0, 1, 4⟩, ⟨0, 0, 5⟩]).getD 2 0 = 2 ∧
    (1 : Int) ≠ 2 := by
  refine ⟨by decide, by decide, by decide, by decide, by decide, by decide⟩

/-- Claim C1 (amended): within a properly nested thread sequence (the
post-order flattening of a well-formed scope forest), event `B` is a direct
child of `A` exactly when `A` is the first event after `B` in the sequence
whose interval contains `B`'s (`parentIdx`); every event's reported exclusive
(active-exclusive) duration equals its inclusive duration minus the sum of the
inclusive durations of its direct children, so an event with no direct
children (a leaf) reports exclusive equal to inclusive. -/
theorem claim_C1 {lo hi : Int} {f : Forest} (hw : wfF lo hi f = true)
    {j : Nat} (hj : j < (flattenF f).length) :
    (exclusivesOf (flattenF f)).getD j 0 =
      duration (evAt (flattenF f) j) - childDurSum (flattenF f) j ∧
    (((List.range (flattenF f).length).filter
        fun i => parentIdx (flattenF f) i = some j) = [] →
      (exclusivesOf (flattenF f)).getD j 0 = duration (evAt (flattenF f) j)) := by
  have h1 : (exclusivesOf (flattenF f)).getD j 0 =
      duration (evAt (flattenF f) j) - childDurSum (flattenF f) j := by
    rw [exclusivesOf_flattenF hw, declExcl_getD hj, childDurSum_flattenF hw]
  refine ⟨h1, fun hnil => ?_⟩
  rw [h1]
  unfold childDurSum
  rw [hnil]
  simp

theorem claim_C1_witness :
    (wfF 0 5 (.node ⟨0, 0, 5⟩ (.node ⟨0, 1, 4⟩ (.node ⟨0, 2, 3⟩ .nil .nil) .nil) .nil)
      = true) ∧
    2 < (flattenF (.node ⟨0, 0, 5⟩
      (.node ⟨0, 1, 4⟩ (.node ⟨0, 2, 3⟩ .nil .nil) .nil) .nil)).length ∧
    ((exclusivesOf (flattenF (.node ⟨0, 0, 5⟩
        (.node ⟨0, 1, 4⟩ (.node ⟨0, 2, 3⟩ .nil .nil) .nil) .nil))).getD 2 0 =
      duration (evAt (flattenF (.node ⟨0, 0, 5⟩
        (.node ⟨0, 1, 4⟩ (.node ⟨0, 2, 3⟩ .nil .nil) .nil) .nil)) 2) -
        childDurSum (flattenF (.node ⟨0, 0, 5⟩
          (.node ⟨0, 1, 4⟩ (.node ⟨0, 2, 3⟩ .nil .nil) .nil) .nil)) 2 ∧
      (((List.range (flattenF (.node ⟨0, 0, 5⟩
          (.node ⟨0, 1, 4⟩ (.node ⟨0, 2, 3⟩ .nil .nil) .nil) .nil)).length).filter
          fun i => parentIdx (flattenF (.node ⟨0, 0, 5⟩
            (.node ⟨0, 1, 4⟩ (.node ⟨0, 2, 3⟩ .nil .nil) .nil) .nil)) i = some 2) = [] →
        (exclusivesOf (flattenF (.node ⟨0, 0, 5⟩
          (.node ⟨0, 1, 4⟩ (.node ⟨0, 2, 3⟩ .nil .nil) .nil) .nil))).getD 2 0 =
          duration (evAt (flattenF (.node ⟨0, 0, 5⟩
            (.node ⟨0, 1, 4⟩ (.node ⟨0, 2, 3⟩ .nil .nil) .nil) .nil)) 2))) :=
  ⟨by decide, by decide,
    @claim_C1 0 5
      (.node ⟨0, 0, 5⟩ (.node ⟨0, 1, 4⟩ (.node ⟨0, 2, 3⟩ .nil .nil) .nil) .nil)
      (by decide) 2 (by decide)⟩

/-- Claim C2 counterexample: two threads, each with a single root event
spanning the whole window [0,10]: `time_ctracked` sums the exclusive durations
of root events across the threads and is 20, while `time_total` is the
wall-clock window 10, so `time_ctracked ≤ time_total` fails. Both buffers are
well-formed single-scope forests within the window. -/
theorem claim_C2_counterexample :
    ([⟨(0 : Nat), [(⟨0, 0, 10⟩ : RawEvent)]⟩, ⟨1, [⟨0, 0, 10⟩]⟩] :
        List ThreadBuffer) =
      ([((0 : Nat), Forest.node ⟨0, 0, 10⟩ .nil .nil),
        (1, Forest.node ⟨0, 0, 10⟩ .nil .nil)].map
          fun p => ⟨p.1, flattenF p.2⟩) ∧
    wfF 0 10 (Forest.node ⟨0, 0, 10⟩ .nil .nil) = true ∧
    (computeTables ⟨[⟨"a.cpp", "p", 1⟩], [⟨0, [⟨0, 0, 10⟩]⟩, ⟨1, [⟨0, 0, 10⟩]⟩], 0⟩
      defaultSettings 10).time_ctracked = 20 ∧
    (computeTables ⟨[⟨"a.cpp", "p", 1⟩], [⟨0, [⟨0, 0, 10⟩]⟩, ⟨1, [⟨0, 0, 10⟩]⟩], 0⟩
      defaultSettings 10).time_total = 10 ∧
    ¬ ((20 : Int) ≤ 10) := by
  refine ⟨by decide, by decide, by decide, by decide, by decide⟩

/-- Claim C2 (amended): for every aggregation over properly nested per-thread
event forests recorded within the window, the reported `time_ctracked` equals
the sum over all threads of the exclusive durations of the root-level events
(events with no parent); and when the events come from at most one thread,
`time_ctracked` is at most `time_total` (across several threads the sum can
exceed the wall-clock window, see the counterexample). -/
theorem claim_C2 (st : CtrackState) (settings : ResultSettings) (e : Int)
    (fs : List (Nat × Forest)) (hf : forestState st fs st.start_time e)
    (hse : st.start_time ≤ e) :
    (computeTables st settings e).time_ctracked =
      (st.buffers.map fun b => declCtracked b.events).sum ∧
    (st.buffers.length ≤ 1 →
      (computeTables st settings e).time_ctracked ≤
        (computeTables st settings e).time_total) := by
  obtain ⟨hst, hwf⟩ := hf
  constructor
  · rw [computeTables_tct, hst, List.map_map, List.map_map]
    congr 1
    apply List.map_congr_left
    intro p hp
    simp only [Function.comp_apply]
    exact (declCtracked_flattenF (hwf p hp)).symm
  · intro hlen
    have htot : (computeTables st settings e).time_total = e - st.start_time := rfl
    rw [computeTables_tct, htot, hst]
    rw [hst] at hlen
    rcases fs with _ | ⟨p, rest⟩
    · simp
      omega
    · rcases rest with _ | ⟨q, rest2⟩
      · simp only [List.map_cons, List.map_nil, List.sum_cons, List.sum_nil, add_zero]
        exact threadCtracked_le (hwf p (by simp)) hse
      · simp at hlen

theorem claim_C2_witness :
    forestState ⟨[⟨"a.cpp", "p", 1⟩], [⟨0, [⟨0, 0, 4⟩, ⟨0, 0, 10⟩]⟩], 0⟩
      [(0, Forest.node ⟨0, 0, 10⟩ (Forest.node ⟨0, 0, 4⟩ .nil .nil) .nil)] 0 10 ∧
    (0 : Int) ≤ 10 ∧
    ((computeTables ⟨[⟨"a.cpp", "p", 1⟩], [⟨0, [⟨0, 0, 4⟩, ⟨0, 0, 10⟩]⟩], 0⟩
        defaultSettings 10).time_ctracked =
      (([⟨0, [⟨0, 0, 4⟩, ⟨0, 0, 10⟩]⟩] : List ThreadBuffer).map
        fun b => declCtracked b.events).sum ∧
      (([⟨0, [⟨0, 0, 4⟩, ⟨0, 0, 10⟩]⟩] : List ThreadBuffer).length ≤ 1 →
        (computeTables ⟨[⟨"a.cpp", "p", 1⟩], [⟨0, [⟨0, 0, 4⟩, ⟨0, 0, 10⟩]⟩], 0⟩
          defaultSettings 10).time_ctracked ≤
        (computeTables ⟨[⟨"a.cpp", "p", 1⟩], [⟨0, [⟨0, 0, 4⟩, ⟨0, 0, 10⟩]⟩], 0⟩
          defaultSettings 10).time_total)) :=
  ⟨⟨by decide, by decide⟩, by decide,
    claim_C2 _ defaultSettings 10
      [(0, Forest.node ⟨0, 0, 10⟩ (Forest.node ⟨0, 0, 4⟩ .nil .nil) .nil)]
      ⟨by decide, by decide⟩ (by decide)⟩

/-- Concrete input for the C3 counterexample: one thread with an inner scope
of site 1 spanning [0,9] inside an outer scope of site 0 spanning [0,10]. -/
def cexSt3 : CtrackState :=
  ⟨[⟨"a.cpp", "p", 10⟩, ⟨"a.cpp", "q", 20⟩], [⟨0, [⟨1, 0, 9⟩, ⟨0, 0, 10⟩]⟩], 0⟩

/-- Settings for the C3 counterexample: `min_percent_active_exclusive = 50`. -/
def cexSet3 : ResultSettings := ⟨1, 50, 0⟩

/-- Claim C3 counterexample: in `cexSt3` the exclusive times are 1 (site 0)
and 9 (site 1) and `time_ctracked` is the root's exclusive 1, so with
`min_percent_active_exclusive = 50` both sites pass the drop test
(100·1/1 = 100 and 100·9/1 = 900), yet the surviving rows' `percent_ae_all`
columns are 90 and 10 — site 0's row stays in the output with
`percent_ae_all = 10 < 50`. -/
theorem claim_C3_counterexample :
    cexSet3.min_percent_active_exclusive = 50 ∧
    ((computeTables cexSt3 cexSet3 10).summary.map
      fun r => (r.site_id, r.percent_ae_all)) = [(1, 90), (0, 10)] ∧
    ((10 : ℚ) < 50) := by
  refine ⟨rfl, ?_, by norm_num⟩
  have hc0 : centerOf cexSet3 (sitePairs cexSt3 0) = [(1, 10)] := by
    rw [centerOf_eq, keptOf_zero_excl rfl]
    decide
  have hc1 : centerOf cexSet3 (sitePairs cexSt3 1) = [(9, 9)] := by
    rw [centerOf_eq, keptOf_zero_excl rfl]
    decide
  have hct0 : (buildRow cexSt3 cexSet3 0).center_time_ae = 1 := by
    show ((centerOf cexSet3 (sitePairs cexSt3 0)).map Prod.fst).sum = 1
    rw [hc0]
    decide
  have hct1 : (buildRow cexSt3 cexSet3 1).center_time_ae = 9 := by
    show ((centerOf cexSet3 (sitePairs cexSt3 1)).map Prod.fst).sum = 9
    rw [hc1]
    decide
  have htct : ((cexSt3.buffers.map fun b => threadCtracked b.events).sum) = 1 := by
    decide
  have hp0 : passesFilter cexSet3
      ((cexSt3.buffers.map fun b => threadCtracked b.events).sum)
      (buildRow cexSt3 cexSet3 0) = true := by
    unfold passesFilter
    rw [htct, hct0, decide_eq_true_eq]
    norm_num [cexSet3]
  have hp1 : passesFilter cexSet3
      ((cexSt3.buffers.map fun b => threadCtracked b.events).sum)
      (buildRow cexSt3 cexSet3 1) = true := by
    unfold passesFilter
    rw [htct, hct1, decide_eq_true_eq]
    norm_num [cexSet3]
  have hnb : ¬ rowBefore (buildRow cexSt3 cexSet3 0) (buildRow cexSt3 cexSet3 1) := by
    decide
  have htae0 : (buildRow cexSt3 cexSet3 0).time_ae_all = 1 := by decide
  have htae1 : (buildRow cexSt3 cexSet3 1).time_ae_all = 9 := by decide
  have hsites : ((List.range cexSt3.sites.length).filter
      fun s => siteCalls cexSt3 s ≠ 0) = [0, 1] := by decide
  rw [computeTables_summary, hsites]
  rw [List.map_cons, List.map_cons, List.map_nil]
  simp only [List.filter_cons, List.filter_nil, hp0, hp1, if_true]
  simp only [List.insertionSort, List.orderedInsert, hnb, if_false]
  simp only [List.map_cons, List.map_nil, List.sum_cons, List.sum_nil,
    htae0, htae1, toSummary, buildRow_site_id]
  norm_num

/-- Claim C3 (amended): for every aggregation with
`min_percent_active_exclusive = X`, a site with at least one call is absent
from the summary table, and likewise from the details table, exactly when
`100 * center_time_active_exclusive / time_ctracked < X`. (The claim's further
assertion that every remaining row satisfies `percent_ae_all ≥ X` is false:
the drop test divides by `time_ctracked` while `percent_ae_all` divides by the
survivors' summed exclusive time, see the counterexample.) -/
theorem claim_C3 (st : CtrackState) (settings : ResultSettings) (e : Int) (s : Nat)
    (hs : s < st.sites.length) (hc : siteCalls st s ≠ 0) :
    ((((computeTables st settings e).summary.any fun r => r.site_id = s) = false) ↔
      100 * ((buildRow st settings s).center_time_ae : ℚ) /
          (((computeTables st settings e).time_ctracked : Int) : ℚ) <
        settings.min_percent_active_exclusive) ∧
    ((((computeTables st settings e).details.any fun r => r.site_id = s) = false) ↔
      100 * ((buildRow st settings s).center_time_ae : ℚ) /
          (((computeTables st settings e).time_ctracked : Int) : ℚ) <
        settings.min_percent_active_exclusive) := by
  have hpf : (passesFilter settings (computeTables st settings e).time_ctracked
      (buildRow st settings s) = true) ↔
      settings.min_percent_active_exclusive ≤
        100 * ((buildRow st settings s).center_time_ae : ℚ) /
          (((computeTables st settings e).time_ctracked : Int) : ℚ) := by
    unfold passesFilter
    rw [decide_eq_true_eq]
  constructor
  · rw [Bool.eq_false_iff, Ne, summary_any_iff st settings e s hs hc, hpf, not_le]
  · rw [Bool.eq_false_iff, Ne, detail_any_iff st settings e s hs hc, hpf, not_le]

theorem claim_C3_witness :
    (0 < (⟨[⟨"a.cpp", "p", 1⟩], [⟨0, [⟨0, 0, 5⟩]⟩], 0⟩ : CtrackState).sites.length) ∧
    siteCalls ⟨[⟨"a.cpp", "p", 1⟩], [⟨0, [⟨0, 0, 5⟩]⟩], 0⟩ 0 ≠ 0 ∧
    (((((computeTables ⟨[⟨"a.cpp", "p", 1⟩], [⟨0, [⟨0, 0, 5⟩]⟩], 0⟩ defaultSettings
          10).summary.any fun r => r.site_id = 0) = false) ↔
        100 * ((buildRow ⟨[⟨"a.cpp", "p", 1⟩], [⟨0, [⟨0, 0, 5⟩]⟩], 0⟩ defaultSettings
            0).center_time_ae : ℚ) /
          (((computeTables ⟨[⟨"a.cpp", "p", 1⟩], [⟨0, [⟨0, 0, 5⟩]⟩], 0⟩ defaultSettings
            10).time_ctracked : Int) : ℚ) <
          defaultSettings.min_percent_active_exclusive) ∧
      ((((computeTables ⟨[⟨"a.cpp", "p", 1⟩], [⟨0, [⟨0, 0, 5⟩]⟩], 0⟩ defaultSettings
          10).details.any fun r => r.site_id = 0) = false) ↔
        100 * ((buildRow ⟨[⟨"a.cpp", "p", 1⟩], [⟨0, [⟨0, 0, 5⟩]⟩], 0⟩ defaultSettings
            0).center_time_ae : ℚ) /
          (((computeTables ⟨[⟨"a.cpp", "p", 1⟩], [⟨0, [⟨0, 0, 5⟩]⟩], 0⟩ defaultSettings
            10).time_ctracked : Int) : ℚ) <
          defaultSettings.min_percent_active_exclusive)) :=
  ⟨by decide, by decide,
    claim_C3 ⟨[⟨"a.cpp", "p", 1⟩], [⟨0, [⟨0, 0, 5⟩]⟩], 0⟩ defaultSettings 10 0
      (by decide) (by decide)⟩

/-- Claim C4 (confirmed): the detail row's standard deviation and coefficient
of variation are computed over the center bracket of exclusive durations; over
a nonempty center bracket the squared deviation equals `Σ(x−μ)²/n` with
`μ = Σx/n` (the population formula — `sd` itself is the nonnegative square
root, witnessed by `Real.sqrt (sd²) ^ 2 = sd²`); and cv is zero whenever the
bracket has at most one element or zero mean, while otherwise
`cv² · μ² = sd²`, i.e. `cv = sd / μ`. -/
theorem claim_C4 (st : CtrackState) (settings : ResultSettings) (s : Nat) :
    (buildRow st settings s).sd_sq =
      sdSqOf ((centerOf settings (sitePairs st s)).map Prod.fst) ∧
    (buildRow st settings s).cv_sq =
      cvSqOf ((centerOf settings (sitePairs st s)).map Prod.fst) ∧
    ((centerOf settings (sitePairs st s)).map Prod.fst ≠ [] →
      sdSqOf ((centerOf settings (sitePairs st s)).map Prod.fst) =
        ((((centerOf settings (sitePairs st s)).map Prod.fst).map
          fun x : Int => ((x : ℚ) -
            meanOf ((centerOf settings (sitePairs st s)).map Prod.fst)) ^ 2).sum) /
          (((centerOf settings (sitePairs st s)).map Prod.fst).length : ℚ) ∧
      meanOf ((centerOf settings (sitePairs st s)).map Prod.fst) =
        ((((centerOf settings (sitePairs st s)).map Prod.fst).map
          fun x : Int => (x : ℚ)).sum) /
          (((centerOf settings (sitePairs st s)).map Prod.fst).length : ℚ)) ∧
    (0 ≤ sdSqOf ((centerOf settings (sitePairs st s)).map Prod.fst) ∧
      Real.sqrt ((sdSqOf ((centerOf settings (sitePairs st s)).map Prod.fst) : ℚ) : ℝ)
          ^ 2 =
        ((sdSqOf ((centerOf settings (sitePairs st s)).map Prod.fst) : ℚ) : ℝ)) ∧
    (((centerOf settings (sitePairs st s)).map Prod.fst).length ≤ 1 ∨
        meanOf ((centerOf settings (sitePairs st s)).map Prod.fst) = 0 →
      cvSqOf ((centerOf settings (sitePairs st s)).map Prod.fst) = 0) ∧
    (meanOf ((centerOf settings (sitePairs st s)).map Prod.fst) ≠ 0 →
      cvSqOf ((centerOf settings (sitePairs st s)).map Prod.fst) *
          (meanOf ((centerOf settings (sitePairs st s)).map Prod.fst)) ^ 2 =
        sdSqOf ((centerOf settings (sitePairs st s)).map Prod.fst)) := by
  refine ⟨rfl, rfl, fun hne => ?_, ⟨sdSqOf_nonneg _, ?_⟩,
    fun h => cvSqOf_small h, fun h => cvSqOf_formula h⟩
  · have hlen : ((centerOf settings (sitePairs st s)).map Prod.fst).length ≠ 0 := by
      simpa [List.length_eq_zero] using hne
    constructor
    · rw [sdSqOf, if_neg hlen, varSumOf_eq]
    · rw [meanOf, if_neg hlen, sumQ_eq]
  · rw [Real.sq_sqrt]
    exact_mod_cast sdSqOf_nonneg ((centerOf settings (sitePairs st s)).map Prod.fst)

theorem claim_C4_witness :
    (buildRow ⟨[⟨"a.cpp", "p", 1⟩], [⟨0, [⟨0, 0, 5⟩]⟩], 0⟩ defaultSettings 0).sd_sq =
      sdSqOf ((centerOf defaultSettings
        (sitePairs ⟨[⟨"a.cpp", "p", 1⟩], [⟨0, [⟨0, 0, 5⟩]⟩], 0⟩ 0)).map Prod.fst) :=
  (claim_C4 ⟨[⟨"a.cpp", "p", 1⟩], [⟨0, [⟨0, 0, 5⟩]⟩], 0⟩ defaultSettings 0).1

/-- Modelled from the claim under review: its literal fastest cut
`⌊n·p/100⌋`. -/
def claimFastestCut (n p : Nat) : Nat := n * p / 100

/-- Modelled from the claim under review: its literal slowest-bracket start
`⌊n·(100−p)/100⌋`. -/
def claimSlowestStart (n p : Nat) : Nat := n * (100 - p) / 100

/-- Modelled from the claim under review: its literal center bracket, the
positions `[⌊n·p/100⌋, ⌊n·(100−p)/100⌋)`. -/
def claimCenter (l : List (Int × Int)) (p : Nat) : List (Int × Int) :=
  (l.take (claimSlowestStart l.length p)).drop (claimFastestCut l.length p)

/-- Modelled from the claim under review: its literal slowest bracket, the
positions `[⌊n·(100−p)/100⌋, n)`. -/
def claimSlowest (l : List (Int × Int)) (p : Nat) : List (Int × Int) :=
  l.drop (claimSlowestStart l.length p)

/-- Concrete input for the C5 counterexample: one thread with a single scope
of site 0 spanning [0,5]. -/
def cexSt5 : CtrackState := ⟨[⟨"a.cpp", "p", 1⟩], [⟨0, [⟨0, 0, 5⟩]⟩], 0⟩

/-- Claim C5 counterexample: a single call with p = 1. The claim's literal
partition has slowest start `⌊1·99/100⌋ = 0`, so its center bracket
`[0, 0)` is empty (forcing zero center statistics) and its slowest bracket
holds the event; the aggregator instead takes `⌊n·p/100⌋ = 0` events into each
outer bracket and keeps the single event in the center with nonzero
statistics, as pinned by the single-call tests. -/
theorem claim_C5_counterexample :
    claimCenter [((5 : Int), (5 : Int))] 1 = [] ∧
    claimSlowest [((5 : Int), (5 : Int))] 1 = [(5, 5)] ∧
    centerOf defaultSettings [((5 : Int), (5 : Int))] = [(5, 5)] ∧
    slowestOf defaultSettings [((5 : Int), (5 : Int))] = [] ∧
    ((computeTables cexSt5 defaultSettings 10).details.map
      fun r => (r.center_min, r.center_max, r.center_mean)) = [(5, 5, 5)] := by
  refine ⟨by decide, by decide, ?_, ?_, ?_⟩
  · rw [centerOf_eq, keptOf_zero_excl rfl]
    decide
  · rw [slowestOf_eq, keptOf_zero_excl rfl]
    decide
  have hc : centerOf defaultSettings (sitePairs cexSt5 0) = [(5, 5)] := by
    rw [centerOf_eq, keptOf_zero_excl rfl]
    decide
  have hct : (buildRow cexSt5 defaultSettings 0).center_time_ae = 5 := by
    show ((centerOf defaultSettings (sitePairs cexSt5 0)).map Prod.fst).sum = 5
    rw [hc]
    decide
  have htct : ((cexSt5.buffers.map fun b => threadCtracked b.events).sum) = 5 := by
    decide
  have hp : passesFilter defaultSettings
      ((cexSt5.buffers.map fun b => threadCtracked b.events).sum)
      (buildRow cexSt5 defaultSettings 0) = true := by
    unfold passesFilter
    rw [htct, hct, decide_eq_true_eq]
    norm_num [defaultSettings]
  have hmin : (buildRow cexSt5 defaultSettings 0).center_min = 5 := by
    show ((centerOf defaultSettings (sitePairs cexSt5 0)).map Prod.fst).headD 0 = 5
    rw [hc]
    rfl
  have hmax : (buildRow cexSt5 defaultSettings 0).center_max = 5 := by
    show ((centerOf defaultSettings (sitePairs cexSt5 0)).map Prod.fst).getLastD 0 = 5
    rw [hc]
    rfl
  have hmean : (buildRow cexSt5 defaultSettings 0).center_mean = 5 := by
    show meanOf ((centerOf defaultSettings (sitePairs cexSt5 0)).map Prod.fst) = 5
    rw [hc]
    show meanOf [5] = 5
    norm_num [meanOf, sumQ]
  have hsites : ((List.range cexSt5.sites.length).filter
      fun s => siteCalls cexSt5 s ≠ 0) = [0] := by decide
  rw [computeTables_details, hsites, List.map_cons, List.map_nil]
  simp only [List.filter_cons, List.filter_nil, hp, if_true]
  simp only [List.insertionSort, List.orderedInsert]
  simp only [List.map_cons, List.map_nil, toDetail, hmin, hmax, hmean]

/-- Claim C5 (amended): for every site and `non_center_percent = p` in [1,49],
the sorted (pre-filtered) exclusive durations are partitioned into fastest,
center and slowest brackets with the fastest and the slowest each holding
exactly `⌊n·p/100⌋` events and the center holding the rest (so a nonempty
kept list always has a nonempty center); a bracket that is empty under this
floor partitioning has all its statistics zero; and the detail row reports
`fastest_range = p` and `slowest_range = 100 − p` literally. -/
theorem claim_C5 (st : CtrackState) (settings : ResultSettings) (s : Nat)
    (_hp1 : 1 ≤ settings.non_center_percent) (hp2 : settings.non_center_percent ≤ 49) :
    fastestOf settings (sitePairs st s) ++ centerOf settings (sitePairs st s) ++
        slowestOf settings (sitePairs st s) = keptOf settings (sitePairs st s) ∧
    (fastestOf settings (sitePairs st s)).length =
      bracketCut (keptOf settings (sitePairs st s)).length settings.non_center_percent ∧
    (slowestOf settings (sitePairs st s)).length =
      bracketCut (keptOf settings (sitePairs st s)).length settings.non_center_percent ∧
    (keptOf settings (sitePairs st s) ≠ [] → centerOf settings (sitePairs st s) ≠ []) ∧
    (buildRow st settings s).fastest_range = settings.non_center_percent ∧
    (buildRow st settings s).slowest_range = 100 - settings.non_center_percent ∧
    (bracketCut (keptOf settings (sitePairs st s)).length settings.non_center_percent
        = 0 →
      fastestOf settings (sitePairs st s) = [] ∧
      slowestOf settings (sitePairs st s) = [] ∧
      (buildRow st settings s).fastest_min = 0 ∧
      (buildRow st settings s).fastest_mean = 0 ∧
      (buildRow st settings s).slowest_mean = 0 ∧
      (buildRow st settings s).slowest_max = 0) := by
  obtain ⟨hpart, hflen, hslen, hcen⟩ := bracket_partition settings (sitePairs st s) hp2
  refine ⟨hpart, hflen, hslen, hcen, rfl, rfl, fun hk => ?_⟩
  have hf : fastestOf settings (sitePairs st s) = [] :=
    List.length_eq_zero.mp (hflen.trans hk)
  have hs : slowestOf settings (sitePairs st s) = [] :=
    List.length_eq_zero.mp (hslen.trans hk)
  refine ⟨hf, hs, ?_, ?_, ?_, ?_⟩
  · show ((fastestOf settings (sitePairs st s)).map Prod.fst).headD 0 = 0
    rw [hf]
    rfl
  · show meanOf ((fastestOf settings (sitePairs st s)).map Prod.fst) = 0
    rw [hf]
    rfl
  · show meanOf ((slowestOf settings (sitePairs st s)).map Prod.fst) = 0
    rw [hs]
    rfl
  · show ((slowestOf settings (sitePairs st s)).map Prod.fst).getLastD 0 = 0
    rw [hs]
    rfl

/-- A witness input for claim C5: three calls of one site with durations 2, 5
and 9, aggregated with `non_center_percent = 25`. -/
def witSt5 : CtrackState :=
  ⟨[⟨"a.cpp", "p", 1⟩], [⟨0, [⟨0, 0, 2⟩]⟩, ⟨0, [⟨0, 0, 5⟩]⟩, ⟨0, [⟨0, 0, 9⟩]⟩], 0⟩

theorem claim_C5_witness :
    (1 ≤ (⟨25, 0, 0⟩ : ResultSettings).non_center_percent) ∧
    ((⟨25, 0, 0⟩ : ResultSettings).non_center_percent ≤ 49) ∧
    (fastestOf ⟨25, 0, 0⟩ (sitePairs witSt5 0) ++ centerOf ⟨25, 0, 0⟩ (sitePairs witSt5 0)
        ++ slowestOf ⟨25, 0, 0⟩ (sitePairs witSt5 0) =
      keptOf ⟨25, 0, 0⟩ (sitePairs witSt5 0) ∧
    (fastestOf ⟨25, 0, 0⟩ (sitePairs witSt5 0)).length =
      bracketCut (keptOf ⟨25, 0, 0⟩ (sitePairs witSt5 0)).length
        (⟨25, 0, 0⟩ : ResultSettings).non_center_percent ∧
    (slowestOf ⟨25, 0, 0⟩ (sitePairs witSt5 0)).length =
      bracketCut (keptOf ⟨25, 0, 0⟩ (sitePairs witSt5 0)).length
        (⟨25, 0, 0⟩ : ResultSettings).non_center_percent ∧
    (keptOf ⟨25, 0, 0⟩ (sitePairs witSt5 0) ≠ [] →
      centerOf ⟨25, 0, 0⟩ (sitePairs witSt5 0) ≠ []) ∧
    (buildRow witSt5 ⟨25, 0, 0⟩ 0).fastest_range =
      (⟨25, 0, 0⟩ : ResultSettings).non_center_percent ∧
    (buildRow witSt5 ⟨25, 0, 0⟩ 0).slowest_range =
      100 - (⟨25, 0, 0⟩ : ResultSettings).non_center_percent ∧
    (bracketCut (keptOf ⟨25, 0, 0⟩ (sitePairs witSt5 0)).length
        (⟨25, 0, 0⟩ : ResultSettings).non_center_percent = 0 →
      fastestOf ⟨25, 0, 0⟩ (sitePairs witSt5 0) = [] ∧
      slowestOf ⟨25, 0, 0⟩ (sitePairs witSt5 0) = [] ∧
      (buildRow witSt5 ⟨25, 0, 0⟩ 0).fastest_min = 0 ∧
      (buildRow witSt5 ⟨25, 0, 0⟩ 0).fastest_mean = 0 ∧
      (buildRow witSt5 ⟨25, 0, 0⟩ 0).slowest_mean = 0 ∧
      (buildRow witSt5 ⟨25, 0, 0⟩ 0).slowest_max = 0)) :=
  ⟨by decide, by decide, claim_C5 witSt5 ⟨25, 0, 0⟩ 0 (by decide) (by decide)⟩

/-- Claim C6 (confirmed): `result_get_tables` (and with it the formatting entry
points built on it) drains and consumes the recorded events: after one
computation every buffer is left empty, and a subsequent computation with no
new scope exits in between observes no events and returns empty summary and
details tables. -/
theorem claim_C6 (st : CtrackState) (s1 s2 : ResultSettings) (e1 e2 : Int) :
    (∀ b ∈ (resultGetTables st s1 e1).2.buffers, b.events = []) ∧
    (resultGetTables (resultGetTables st s1 e1).2 s2 e2).1.summary = [] ∧
    (resultGetTables (resultGetTables st s1 e1).2 s2 e2).1.details = [] := by
  have hdrain : (resultGetTables st s1 e1).2 =
      ⟨st.sites, st.buffers.map fun b => ⟨b.thread_id, []⟩, e1⟩ := rfl
  have hsp : ∀ s, sitePairs
      ⟨st.sites, st.buffers.map fun b => ⟨b.thread_id, []⟩, e1⟩ s = [] := by
    intro s
    show (st.buffers.map fun b => (⟨b.thread_id, []⟩ : ThreadBuffer)).flatMap
      (fun b => ((eventPairs b).filter fun p => p.1.site_id = s).map
        fun p => (p.2, duration p.1)) = []
    induction st.buffers with
    | nil => rfl
    | cons x xs ih =>
      rw [List.map_cons, List.flatMap_cons,
        show ((eventPairs (⟨x.thread_id, []⟩ : ThreadBuffer)).filter
          fun p => p.1.site_id = s).map (fun p => (p.2, duration p.1)) = [] from rfl,
        List.nil_append]
      exact ih
  have hsites : ((List.range
      (⟨st.sites, st.buffers.map fun b => ⟨b.thread_id, []⟩, e1⟩ :
        CtrackState).sites.length).filter
      fun s => siteCalls
        ⟨st.sites, st.buffers.map fun b => ⟨b.thread_id, []⟩, e1⟩ s ≠ 0) = [] := by
    rw [List.filter_eq_nil_iff]
    intro a _
    simp [siteCalls, hsp a]
  refine ⟨?_, ?_, ?_⟩
  · intro b hb
    rw [hdrain] at hb
    simp only [List.mem_map] at hb
    obtain ⟨a, _, rfl⟩ := hb
    rfl
  · rw [hdrain, show ∀ (q : CtrackState) (s : ResultSettings) (t : Int),
        (resultGetTables q s t).1 = computeTables q s t from fun _ _ _ => rfl,
      computeTables_summary, hsites]
    rfl
  · rw [hdrain, show ∀ (q : CtrackState) (s : ResultSettings) (t : Int),
        (resultGetTables q s t).1 = computeTables q s t from fun _ _ _ => rfl,
      computeTables_details, hsites]
    rfl

/-- Claim C7 (confirmed): save followed by load round-trips: for every state
within the format's bounds, `save_events_to_file` writes bytes that
`loadState` reads back as exactly the same sites, threads, events and recorded
window, so computing result tables from the loaded state (with identical
settings) yields tables identical to those computed from the in-memory
state. -/
theorem claim_C7 (st : CtrackState) (settings : ResultSettings) (e : Int)
    (h : stateOK st e = true) :
    loadState (saveEventsToFile st e).1 = some (st, e) ∧
    ∀ st2 e2, loadState (saveEventsToFile st e).1 = some (st2, e2) →
      computeTables st2 settings e2 = computeTables st settings e2 := by
  have h1 : loadState (saveEventsToFile st e).1 = some (st, e) := loadState_saveBytes h
  refine ⟨h1, fun st2 e2 hld => ?_⟩
  rw [h1, Option.some.injEq, Prod.mk.injEq] at hld
  obtain ⟨h2, h3⟩ := hld
  rw [h2]

theorem claim_C7_witness :
    stateOK ⟨[⟨"a.cpp", "p", 1⟩], [⟨0, [⟨0, 0, 5⟩]⟩], 0⟩ 7 = true ∧
    (loadState (saveEventsToFile ⟨[⟨"a.cpp", "p", 1⟩], [⟨0, [⟨0, 0, 5⟩]⟩], 0⟩ 7).1 =
      some (⟨[⟨"a.cpp", "p", 1⟩], [⟨0, [⟨0, 0, 5⟩]⟩], 0⟩, 7) ∧
    ∀ st2 e2,
      loadState (saveEventsToFile ⟨[⟨"a.cpp", "p", 1⟩], [⟨0, [⟨0, 0, 5⟩]⟩], 0⟩ 7).1 =
        some (st2, e2) →
      computeTables st2 defaultSettings e2 =
        computeTables ⟨[⟨"a.cpp", "p", 1⟩], [⟨0, [⟨0, 0, 5⟩]⟩], 0⟩ defaultSettings e2) :=
  ⟨by decide,
    claim_C7 ⟨[⟨"a.cpp", "p", 1⟩], [⟨0, [⟨0, 0, 5⟩]⟩], 0⟩ defaultSettings 7 (by decide)⟩

/-- Claim C8 (confirmed): sites are identified by (filename, line, name): two
sites agreeing on everything but location are distinct and interning both
yields distinct handles; and in any aggregation over a properly nested state
with filtering disabled, two distinct called sites produce separate detail
rows, each carrying its own call count. -/
theorem claim_C8 (reg : List Site) (a b : Site)
    (hab : a.filename ≠ b.filename ∨ a.line ≠ b.line)
    (st : CtrackState) (settings : ResultSettings) (e : Int)
    (fs : List (Nat × Forest)) (t0 t1 : Int) (hf : forestState st fs t0 t1)
    (hmin : settings.min_percent_active_exclusive = 0)
    (sA sB : Nat) (hA : sA < st.sites.length) (hB : sB < st.sites.length)
    (hAB : sA ≠ sB) (hcA : siteCalls st sA ≠ 0) (hcB : siteCalls st sB ≠ 0) :
    (intern reg a).2 ≠ (intern (intern reg a).1 b).2 ∧
    (∃ rA ∈ (computeTables st settings e).details,
      rA.site_id = sA ∧ rA.calls = siteCalls st sA) ∧
    (∃ rB ∈ (computeTables st settings e).details,
      rB.site_id = sB ∧ rB.calls = siteCalls st sB) ∧
    ∀ rA ∈ (computeTables st settings e).details,
      ∀ rB ∈ (computeTables st settings e).details,
        rA.site_id = sA → rB.site_id = sB → rA ≠ rB := by
  refine ⟨?_, ?_, ?_, ?_⟩
  · apply intern_distinct
    intro hEq
    rcases hab with h2 | h2
    · exact h2 (by rw [hEq])
    · exact h2 (by rw [hEq])
  · have hpassA : passesFilter settings (computeTables st settings e).time_ctracked
        (buildRow st settings sA) = true := by
      rw [computeTables_tct]
      exact passesFilter_of_zero_min hf settings hmin sA
    exact ⟨toDetail (buildRow st settings sA),
      detail_mem_of_passes st settings e sA hA hcA hpassA, rfl, rfl⟩
  · have hpassB : passesFilter settings (computeTables st settings e).time_ctracked
        (buildRow st settings sB) = true := by
      rw [computeTables_tct]
      exact passesFilter_of_zero_min hf settings hmin sB
    exact ⟨toDetail (buildRow st settings sB),
      detail_mem_of_passes st settings e sB hB hcB hpassB, rfl, rfl⟩
  · intro rA _ rB _ hidA hidB hEq
    rw [hEq] at hidA
    exact hAB (hidA.symm.trans hidB)

/-- A witness input for claim C8: two sites with the same display name at
different locations, each called once in one thread. -/
def witSt8 : CtrackState :=
  ⟨[⟨"a.cpp", "f", 1⟩, ⟨"b.cpp", "f", 1⟩], [⟨0, [⟨0, 0, 3⟩, ⟨1, 5, 9⟩]⟩], 0⟩

/-- The scope forest of `witSt8`: two sibling roots. -/
def witF8 : Forest := .node ⟨0, 0, 3⟩ .nil (.node ⟨1, 5, 9⟩ .nil .nil)

theorem claim_C8_witness :
    ((⟨"a.cpp", "f", 1⟩ : Site).filename ≠ (⟨"b.cpp", "f", 1⟩ : Site).filename ∨
      (⟨"a.cpp", "f", 1⟩ : Site).line ≠ (⟨"b.cpp", "f", 1⟩ : Site).line) ∧
    forestState witSt8 [(0, witF8)] 0 10 ∧
    defaultSettings.min_percent_active_exclusive = 0 ∧
    (0 < witSt8.sites.length ∧ 1 < witSt8.sites.length ∧ (0 : Nat) ≠ 1 ∧
      siteCalls witSt8 0 ≠ 0 ∧ siteCalls witSt8 1 ≠ 0) ∧
    ((intern [] ⟨"a.cpp", "f", 1⟩).2 ≠
        (intern (intern [] ⟨"a.cpp", "f", 1⟩).1 ⟨"b.cpp", "f", 1⟩).2 ∧
      (∃ rA ∈ (computeTables witSt8 defaultSettings 10).details,
        rA.site_id = 0 ∧ rA.calls = siteCalls witSt8 0) ∧
      (∃ rB ∈ (computeTables witSt8 defaultSettings 10).details,
        rB.site_id = 1 ∧ rB.calls = siteCalls witSt8 1) ∧
      ∀ rA ∈ (computeTables witSt8 defaultSettings 10).details,
        ∀ rB ∈ (computeTables witSt8 defaultSettings 10).details,
          rA.site_id = 0 → rB.site_id = 1 → rA ≠ rB) :=
  ⟨Or.inl (by decide), ⟨by decide, by decide⟩, rfl,
    ⟨by decide, by decide, by decide, by decide, by decide⟩,
    claim_C8 [] ⟨"a.cpp", "f", 1⟩ ⟨"b.cpp", "f", 1⟩ (Or.inl (by decide))
      witSt8 defaultSettings 10 [(0, witF8)] 0 10 ⟨by decide, by decide⟩ rfl
      0 1 (by decide) (by decide) (by decide) (by decide) (by decide)⟩

/-- Claim C9 (confirmed): every result computation produces summary and
details tables with the same number of rows — one per surviving site each,
taken from the same sorted list of surviving sites — and the rows agree
pairwise on site and call count. -/
theorem claim_C9 (st : CtrackState) (settings : ResultSettings) (e : Int) :
    (computeTables st settings e).summary.length =
      (computeTables st settings e).details.length ∧
    ((computeTables st settings e).summary.map fun r => (r.site_id, r.calls)) =
      ((computeTables st settings e).details.map fun r => (r.site_id, r.calls)) := by
  rw [computeTables_summary, computeTables_details]
  constructor
  · rw [List.length_map, List.length_map]
  · rw [List.map_map, List.map_map]
    rfl

/-- Claim C10 (confirmed): aggregation is a pure function of the recorded
event multiset and the settings: permuting the order in which thread buffers
were collected leaves every part of the result tables unchanged — row counts,
site order, names, call counts and the echoed settings. -/
theorem claim_C10 (sites : List Site) (bufs1 bufs2 : List ThreadBuffer) (t0 : Int)
    (settings : ResultSettings) (e : Int) (hperm : List.Perm bufs1 bufs2) :
    computeTables ⟨sites, bufs1, t0⟩ settings e =
      computeTables ⟨sites, bufs2, t0⟩ settings e := by
  have hcalls : ∀ s, siteCalls ⟨sites, bufs1, t0⟩ s = siteCalls ⟨sites, bufs2, t0⟩ s :=
    fun s => (@sitePairs_perm sites bufs1 bufs2 t0 hperm s).length_eq
  have hrow : ∀ s, buildRow ⟨sites, bufs1, t0⟩ settings s =
      buildRow ⟨sites, bufs2, t0⟩ settings s :=
    fun s => buildRow_perm settings hperm s
  have htct : ((bufs1.map fun b => threadCtracked b.events).sum) =
      ((bufs2.map fun b => threadCtracked b.events).sum) := (hperm.map _).sum_eq
  have hids : ((List.range sites.length).filter
      fun s => siteCalls ⟨sites, bufs1, t0⟩ s ≠ 0) =
      ((List.range sites.length).filter
        fun s => siteCalls ⟨sites, bufs2, t0⟩ s ≠ 0) := by
    apply List.filter_congr
    intro s _
    rw [hcalls s]
  have hsorted : ((((List.range sites.length).filter
      fun s => siteCalls ⟨sites, bufs1, t0⟩ s ≠ 0).map
        (buildRow ⟨sites, bufs1, t0⟩ settings)).filter
      (passesFilter settings ((bufs1.map fun b => threadCtracked b.events).sum))).insertionSort
      rowBefore =
      ((((List.range sites.length).filter
      fun s => siteCalls ⟨sites, bufs2, t0⟩ s ≠ 0).map
        (buildRow ⟨sites, bufs2, t0⟩ settings)).filter
      (passesFilter settings ((bufs2.map fun b => threadCtracked b.events).sum))).insertionSort
      rowBefore := by
    rw [hids, List.map_congr_left (fun s _ => hrow s), htct]
  simp only [computeTables]
  rw [hsorted, htct]

theorem claim_C10_witness :
    List.Perm
      [(⟨0, [(⟨0, 0, 3⟩ : RawEvent)]⟩ : ThreadBuffer), ⟨1, [⟨0, 0, 4⟩]⟩]
      [(⟨1, [(⟨0, 0, 4⟩ : RawEvent)]⟩ : ThreadBuffer), ⟨0, [⟨0, 0, 3⟩]⟩] ∧
    computeTables ⟨[⟨"a.cpp", "p", 1⟩],
        [⟨0, [⟨0, 0, 3⟩]⟩, ⟨1, [⟨0, 0, 4⟩]⟩], 0⟩ defaultSettings 10 =
      computeTables ⟨[⟨"a.cpp", "p", 1⟩],
        [⟨1, [⟨0, 0, 4⟩]⟩, ⟨0, [⟨0, 0, 3⟩]⟩], 0⟩ defaultSettings 10 :=
  ⟨List.Perm.swap _ _ _,
    claim_C10 [⟨"a.cpp", "p", 1⟩]
      [⟨0, [⟨0, 0, 3⟩]⟩, ⟨1, [⟨0, 0, 4⟩]⟩]
      [⟨1, [⟨0, 0, 4⟩]⟩, ⟨0, [⟨0, 0, 3⟩]⟩] 0 defaultSettings 10
      (List.Perm.swap _ _ _)⟩

end Ctrack
